import Mathlib

/-!
# Verification of the ARB core (fmpr multiplication, fmprb balls, fast multipoint evaluation)

Shallow embedding of the repository's three source files:

* `src/fmpr/mul_mpn.c` — `_fmpr_mul_mpn` (correctly rounded mantissa multiplication)
  together with the tiered scratch-buffer macros `MUL_TMP_ALLOC` / `MUL_TMP_FREE`
  and the cleanup hook `_mul_tmp_cleanup`.
* `src/fmprb/const_e.c` — the `DEF_CACHED_CONSTANT` cached-constant protocol.
* `src/fmprb_poly/evaluate_vec_fast.c` — `_fmprb_poly_rem_2`,
  `_fmprb_poly_evaluate_vec_fast_precomp` and `_fmprb_poly_evaluate_vec_fast`.

Routines that these files call but that are not part of the repository snapshot
(`_fmpr_set_round_mpn`, the `fmprb` ball operations, `_fmprb_poly_rem`,
`_fmprb_poly_evaluate`, the subproduct tree builder, `DEF_CACHED_CONSTANT`)
are modelled from the specification; each such definition carries a doc
comment starting with `Modelled from the spec:`.

Values of the `fmpr` type are modelled as dyadic rationals `man * 2 ^ exp`
with an integer mantissa and integer exponent; mantissa limb arrays are
modelled as natural numbers together with explicit base-`2 ^ 64` limb lists.
-/

/-! ## Dyadic (`fmpr`) values -/

/-- An `fmpr` arbitrary-precision floating value: integer mantissa and
integer exponent, denoting `man * 2 ^ exp`.  (The canonical zero is `man = 0`;
the special infinity/NaN sentinels are outside the scope of the claims.) -/
structure Fmpr where
  man : ℤ
  exp : ℤ
  deriving Repr, DecidableEq

/-- The exact rational value of an `fmpr`. -/
def fmprVal (x : Fmpr) : ℚ := (x.man : ℚ) * (2 : ℚ) ^ x.exp

/-- Number of significant bits of a natural number (`0` for `0`). -/
def nbits (n : ℕ) : ℕ := if n = 0 then 0 else Nat.log2 n + 1

/-- Exact product of two `fmpr` values. -/
def fmprMulExact (x y : Fmpr) : Fmpr := ⟨x.man * y.man, x.exp + y.exp⟩

/-- Exact sum of two `fmpr` values (align exponents, add mantissas). -/
def fmprAddExact (x y : Fmpr) : Fmpr :=
  let e := min x.exp y.exp
  ⟨x.man * 2 ^ (x.exp - e).toNat + y.man * 2 ^ (y.exp - e).toNat, e⟩

/-- Exact negation of an `fmpr` value. -/
def fmprNegExact (x : Fmpr) : Fmpr := ⟨-x.man, x.exp⟩

/-- Exact difference of two `fmpr` values. -/
def fmprSubExact (x y : Fmpr) : Fmpr := fmprAddExact x (fmprNegExact y)

/-- Exact absolute value of an `fmpr` value. -/
def fmprAbsExact (x : Fmpr) : Fmpr := ⟨|x.man|, x.exp⟩

theorem fmprVal_mulExact (x y : Fmpr) :
    fmprVal (fmprMulExact x y) = fmprVal x * fmprVal y := by
  simp only [fmprVal, fmprMulExact]
  rw [zpow_add₀ (by norm_num : (2 : ℚ) ≠ 0)]
  push_cast
  ring

theorem fmprVal_addExact (x y : Fmpr) :
    fmprVal (fmprAddExact x y) = fmprVal x + fmprVal y := by
  simp only [fmprVal, fmprAddExact]
  push_cast
  have hx : ((2 : ℚ) ^ (x.exp - min x.exp y.exp).toNat) =
      (2 : ℚ) ^ (x.exp - min x.exp y.exp) := by
    rw [← zpow_natCast]
    congr 1
    exact Int.toNat_of_nonneg (by omega)
  have hy : ((2 : ℚ) ^ (y.exp - min x.exp y.exp).toNat) =
      (2 : ℚ) ^ (y.exp - min x.exp y.exp) := by
    rw [← zpow_natCast]
    congr 1
    exact Int.toNat_of_nonneg (by omega)
  rw [add_mul, mul_assoc, mul_assoc, hx, hy,
    ← zpow_add₀ (by norm_num : (2 : ℚ) ≠ 0),
    ← zpow_add₀ (by norm_num : (2 : ℚ) ≠ 0)]
  simp

theorem fmprVal_negExact (x : Fmpr) :
    fmprVal (fmprNegExact x) = -fmprVal x := by
  simp only [fmprVal, fmprNegExact]
  push_cast
  ring

theorem fmprVal_subExact (x y : Fmpr) :
    fmprVal (fmprSubExact x y) = fmprVal x - fmprVal y := by
  simp only [fmprSubExact, fmprVal_addExact, fmprVal_negExact]
  ring

theorem two_zpow_pos (e : ℤ) : (0 : ℚ) < (2 : ℚ) ^ e :=
  zpow_pos (by norm_num) e

theorem fmprVal_absExact (x : Fmpr) :
    fmprVal (fmprAbsExact x) = |fmprVal x| := by
  simp only [fmprVal, fmprAbsExact]
  rw [abs_mul, abs_of_pos (two_zpow_pos x.exp)]
  push_cast
  ring

/-! ### Bit counts -/

theorem nbits_zero : nbits 0 = 0 := rfl

theorem nbits_le_iff {n : ℕ} {p : ℕ} : nbits n ≤ p ↔ n < 2 ^ p := by
  unfold nbits
  rcases eq_or_ne n 0 with h | h
  · subst h
    simp only [if_pos rfl]
    constructor
    · intro _
      exact Nat.pos_pow_of_pos p (by norm_num)
    · intro _
      exact Nat.zero_le p
  · rw [if_neg h]
    constructor
    · intro hle
      calc n < 2 ^ (Nat.log2 n + 1) := Nat.lt_log2_self
      _ ≤ 2 ^ p := Nat.pow_le_pow_right (by norm_num) hle
    · intro hlt
      by_contra hgt
      push_neg at hgt
      have h1 : 2 ^ (Nat.log2 n) ≤ n := Nat.log2_self_le h
      have h2 : 2 ^ p ≤ 2 ^ Nat.log2 n := Nat.pow_le_pow_right (by norm_num) (by omega)
      omega

theorem lt_two_pow_nbits (n : ℕ) : n < 2 ^ nbits n := nbits_le_iff.mp le_rfl

theorem two_pow_nbits_pred_le {n : ℕ} (h : n ≠ 0) : 2 ^ (nbits n - 1) ≤ n := by
  unfold nbits
  rw [if_neg h]
  simpa using Nat.log2_self_le h

theorem nbits_two_pow (k : ℕ) : nbits (2 ^ k) = k + 1 := by
  have h1 : nbits (2 ^ k) ≤ k + 1 :=
    nbits_le_iff.mpr (Nat.pow_lt_pow_right (by norm_num) (by omega))
  have h2 : ¬ nbits (2 ^ k) ≤ k := by
    rw [nbits_le_iff]
    exact Nat.lt_irrefl _
  omega

/-! ## Rounding

The rounding step `_fmpr_set_round_mpn` is called by `_fmpr_mul_mpn` but its
code is not part of the repository snapshot; it is modelled from the spec:
"Round the (possibly still over-long) product to `precision_bits` significant
bits under `rounding_mode` (round-to-nearest-ties-to-even, or any of the four
directed rounding modes); rounding returns the number of bits discarded (a
'shift') and an exactness flag indicating whether any nonzero bits were
discarded."  Directed modes act on a sign-magnitude representation, so the
magnitude core has three modes: toward zero, away from zero, and to nearest
(ties to even). -/

/-- Rounding direction for a nonnegative magnitude. -/
inductive MagRnd where
  | toward : MagRnd
  | away : MagRnd
  | near : MagRnd
  deriving Repr, DecidableEq

/-- Result of rounding a magnitude: rounded mantissa, number of discarded
bits (the "shift"), and the exactness flag. -/
structure MagRoundResult where
  man : ℕ
  shift : ℕ
  exact : Bool
  deriving Repr, DecidableEq

/-- Modelled from the spec: the magnitude core of `_fmpr_set_round_mpn`.
Rounds `n` to `prec` significant bits under mode `rnd`, returning the rounded
mantissa, the number of bits discarded, and whether the discarded bits were
all zero.  A carry that overflows to `2 ^ prec` is renormalized by one more
shift (the value is unchanged). -/
def magRound (prec : ℕ) (rnd : MagRnd) (n : ℕ) : MagRoundResult :=
  if nbits n ≤ prec then ⟨n, 0, true⟩
  else
    let s := nbits n - prec
    let q := n / 2 ^ s
    let r := n % 2 ^ s
    let q' := match rnd with
      | .toward => q
      | .away => if r = 0 then q else q + 1
      | .near =>
          if 2 * r < 2 ^ s then q
          else if 2 ^ s < 2 * r then q + 1
          else if q % 2 = 0 then q else q + 1
    if q' = 2 ^ prec then ⟨q' / 2, s + 1, decide (r = 0)⟩
    else ⟨q', s, decide (r = 0)⟩

theorem magRound_exact_of_small {prec : ℕ} {rnd : MagRnd} {n : ℕ}
    (h : nbits n ≤ prec) : magRound prec rnd n = ⟨n, 0, true⟩ := by
  unfold magRound
  rw [if_pos h]

/-- The rounded value differs from the input by at most one unit in the
last place: `|man * 2 ^ shift - n| ≤ 2 ^ (nbits n - prec)`. -/
theorem magRound_err (prec : ℕ) (rnd : MagRnd) (n : ℕ) :
    (magRound prec rnd n).man * 2 ^ (magRound prec rnd n).shift
      ≤ n + 2 ^ (nbits n - prec) ∧
    n ≤ (magRound prec rnd n).man * 2 ^ (magRound prec rnd n).shift
      + 2 ^ (nbits n - prec) := by
  unfold magRound
  by_cases h : nbits n ≤ prec
  · rw [if_pos h]
    simp only
    have : 0 < 2 ^ (nbits n - prec) := Nat.pos_pow_of_pos _ (by norm_num)
    omega
  · rw [if_neg h]
    simp only
    set s := nbits n - prec with hs
    set q := n / 2 ^ s with hq
    set r := n % 2 ^ s with hr
    have hdm : q * 2 ^ s + r = n := by
      rw [hq, hr, Nat.mul_comm]
      exact Nat.div_add_mod n (2 ^ s)
    have hrlt : r < 2 ^ s := Nat.mod_lt _ (Nat.pos_pow_of_pos _ (by norm_num))
    have key : ∀ q1 : ℕ, (q1 = q ∨ q1 = q + 1) →
        q1 * 2 ^ s ≤ n + 2 ^ s ∧ n ≤ q1 * 2 ^ s + 2 ^ s := by
      intro q1 hq1
      rcases hq1 with h1 | h1 <;> subst h1 <;> constructor <;> nlinarith
    have hbranch : ∀ q1 : ℕ, (q1 = q ∨ q1 = q + 1) →
        ((if q1 = 2 ^ prec then
            (⟨q1 / 2, s + 1, decide (r = 0)⟩ : MagRoundResult)
          else ⟨q1, s, decide (r = 0)⟩).man *
         2 ^ (if q1 = 2 ^ prec then
            (⟨q1 / 2, s + 1, decide (r = 0)⟩ : MagRoundResult)
          else ⟨q1, s, decide (r = 0)⟩).shift ≤ n + 2 ^ s ∧
         n ≤ (if q1 = 2 ^ prec then
            (⟨q1 / 2, s + 1, decide (r = 0)⟩ : MagRoundResult)
          else ⟨q1, s, decide (r = 0)⟩).man *
         2 ^ (if q1 = 2 ^ prec then
            (⟨q1 / 2, s + 1, decide (r = 0)⟩ : MagRoundResult)
          else ⟨q1, s, decide (r = 0)⟩).shift + 2 ^ s) := by
      intro q1 hq1
      by_cases hov : q1 = 2 ^ prec
      · rw [if_pos hov]
        simp only
        rcases Nat.eq_zero_or_pos prec with hp0 | hp
        · have hq10 : q1 = 1 := by
            rw [hov, hp0]
            rfl
          have hs0 : s = nbits n := by omega
          have hn2 : n < 2 ^ s := by
            rw [hs0]
            exact lt_two_pow_nbits n
          rw [hq10]
          norm_num
          omega
        · have hval : q1 / 2 * 2 ^ (s + 1) = q1 * 2 ^ s := by
            rw [hov]
            have : 2 ^ prec / 2 = 2 ^ (prec - 1) := by
              obtain ⟨k, rfl⟩ : ∃ k, prec = k + 1 := ⟨prec - 1, by omega⟩
              rw [Nat.pow_succ, Nat.mul_div_cancel _ (by norm_num : 0 < 2)]
              simp
            rw [this, ← Nat.pow_add, ← Nat.pow_add]
            congr 1
            omega
          rw [hval]
          exact key q1 hq1
      · rw [if_neg hov]
        simp only
        exact key q1 hq1
    cases rnd with
    | toward => exact hbranch q (Or.inl rfl)
    | away =>
        by_cases hr0 : r = 0
        · simpa [hr0] using hbranch q (Or.inl rfl)
        · simpa [hr0] using hbranch (q + 1) (Or.inr rfl)
    | near =>
        by_cases h1 : 2 * r < 2 ^ s
        · simpa [h1] using hbranch q (Or.inl rfl)
        · by_cases h2 : 2 ^ s < 2 * r
          · simpa [h1, h2] using hbranch (q + 1) (Or.inr rfl)
          · by_cases h3 : q % 2 = 0
            · simpa [h1, h2, h3] using hbranch q (Or.inl rfl)
            · simpa [h1, h2, h3] using hbranch (q + 1) (Or.inr rfl)

/-- Facts about the truncation underlying `magRound` in the over-long case. -/
theorem magRound_div_bounds {prec n : ℕ} (h : prec < nbits n) :
    n / 2 ^ (nbits n - prec) < 2 ^ prec ∧
    (1 ≤ prec → 2 ^ (prec - 1) ≤ n / 2 ^ (nbits n - prec)) := by
  set s := nbits n - prec with hs
  constructor
  · rw [Nat.div_lt_iff_lt_mul (Nat.pos_pow_of_pos _ (by norm_num))]
    calc n < 2 ^ nbits n := lt_two_pow_nbits n
    _ = 2 ^ prec * 2 ^ s := by
        rw [← Nat.pow_add]
        congr 1
        omega
  · intro hp
    have hn0 : n ≠ 0 := by
      intro h0
      rw [h0] at h
      simp [nbits_zero] at h
    rw [Nat.le_div_iff_mul_le (Nat.pos_pow_of_pos _ (by norm_num))]
    calc 2 ^ (prec - 1) * 2 ^ s = 2 ^ (nbits n - 1) := by
          rw [← Nat.pow_add]
          congr 1
          omega
    _ ≤ n := two_pow_nbits_pred_le hn0

/-- In `magRound`, the candidate quotient is the truncation or its successor. -/
theorem magRound_q_cases (prec : ℕ) (rnd : MagRnd) (n : ℕ) (_h : ¬ nbits n ≤ prec) :
    (let s := nbits n - prec
     let q := n / 2 ^ s
     let r := n % 2 ^ s
     let q' := match rnd with
      | MagRnd.toward => q
      | MagRnd.away => if r = 0 then q else q + 1
      | MagRnd.near =>
          if 2 * r < 2 ^ s then q
          else if 2 ^ s < 2 * r then q + 1
          else if q % 2 = 0 then q else q + 1
     q' = q ∨ q' = q + 1) := by
  simp only
  cases rnd with
  | toward => exact Or.inl rfl
  | away =>
      by_cases hr0 : n % 2 ^ (nbits n - prec) = 0
      · rw [if_pos hr0]
        exact Or.inl rfl
      · rw [if_neg hr0]
        exact Or.inr rfl
  | near =>
      by_cases h1 : 2 * (n % 2 ^ (nbits n - prec)) < 2 ^ (nbits n - prec)
      · rw [if_pos h1]
        exact Or.inl rfl
      · rw [if_neg h1]
        by_cases h2 : 2 ^ (nbits n - prec) < 2 * (n % 2 ^ (nbits n - prec))
        · rw [if_pos h2]
          exact Or.inr rfl
        · rw [if_neg h2]
          by_cases h3 : n / 2 ^ (nbits n - prec) % 2 = 0
          · rw [if_pos h3]
            exact Or.inl rfl
          · rw [if_neg h3]
            exact Or.inr rfl

/-- Core of the exactness characterization, for a concrete candidate
quotient `q1`. -/
theorem magRound_exact_core {prec s q r n : ℕ} (hdm : q * 2 ^ s + r = n)
    (hrlt : r < 2 ^ s) (hqlt : q < 2 ^ prec) (q1 : ℕ)
    (hq1r : r = 0 → q1 = q) (hq1 : q1 = q ∨ q1 = q + 1) :
    ((if q1 = 2 ^ prec then
        (⟨q1 / 2, s + 1, decide (r = 0)⟩ : MagRoundResult)
      else ⟨q1, s, decide (r = 0)⟩).exact = true ↔
     (if q1 = 2 ^ prec then
        (⟨q1 / 2, s + 1, decide (r = 0)⟩ : MagRoundResult)
      else ⟨q1, s, decide (r = 0)⟩).man *
     2 ^ (if q1 = 2 ^ prec then
        (⟨q1 / 2, s + 1, decide (r = 0)⟩ : MagRoundResult)
      else ⟨q1, s, decide (r = 0)⟩).shift = n) := by
  by_cases hr0 : r = 0
  · have hq1q := hq1r hr0
    rw [if_neg (by omega : ¬ q1 = 2 ^ prec)]
    constructor
    · intro _
      simp only
      rw [hq1q]
      omega
    · intro _
      simp only
      rw [hr0]
      rfl
  · have hne : ∀ v : ℕ, (v = q * 2 ^ s ∨ v = (q + 1) * 2 ^ s ∨ v = 0) → v ≠ n := by
      intro v hv
      rcases hv with hv | hv | hv <;> subst hv
      · omega
      · intro hc
        nlinarith
      · omega
    by_cases hov : q1 = 2 ^ prec
    · rw [if_pos hov]
      simp only [decide_eq_true_eq]
      constructor
      · intro hc
        exact absurd hc hr0
      · intro hval
        exfalso
        have hq1q : q1 = q + 1 := by
          rcases hq1 with hc | hc
          · omega
          · exact hc
        rcases Nat.even_or_odd q1 with he | ho
        · have h2 : q1 / 2 * 2 = q1 := by
            rcases he with ⟨k, hk⟩
            omega
          have : q1 / 2 * 2 ^ (s + 1) = q1 * 2 ^ s := by
            calc q1 / 2 * 2 ^ (s + 1) = q1 / 2 * 2 * 2 ^ s := by ring
            _ = q1 * 2 ^ s := by rw [h2]
          rw [this, hq1q] at hval
          exact hne _ (Or.inr (Or.inl rfl)) hval
        · -- q1 = 2 ^ prec odd forces prec = 0, q1 = 1, q = 0
          have hp0 : prec = 0 := by
            by_contra hp
            have : ∃ k, prec = k + 1 := ⟨prec - 1, by omega⟩
            rcases this with ⟨k, hk⟩
            subst hk
            rcases ho with ⟨m, hm⟩
            have : q1 = 2 * 2 ^ k := by
              rw [hov, Nat.pow_succ]
              ring
            omega
          have hq11 : q1 = 1 := by
            rw [hov, hp0]
            rfl
          rw [hq11] at hval
          norm_num at hval
          exact hne 0 (Or.inr (Or.inr rfl)) hval
    · rw [if_neg hov]
      simp only [decide_eq_true_eq]
      constructor
      · intro hc
        exact absurd hc hr0
      · intro hval
        exfalso
        rcases hq1 with hc | hc <;> subst hc
        · exact hne _ (Or.inl rfl) hval
        · exact hne _ (Or.inr (Or.inl rfl)) hval

/-- The exactness flag is true if and only if no nonzero bits were discarded,
i.e. iff the rounded mantissa shifted back recovers the input exactly. -/
theorem magRound_exact_iff (prec : ℕ) (rnd : MagRnd) (n : ℕ) :
    (magRound prec rnd n).exact = true ↔
    (magRound prec rnd n).man * 2 ^ (magRound prec rnd n).shift = n := by
  unfold magRound
  by_cases h : nbits n ≤ prec
  · rw [if_pos h]
    simp
  · rw [if_neg h]
    simp only
    have hdm : n / 2 ^ (nbits n - prec) * 2 ^ (nbits n - prec)
        + n % 2 ^ (nbits n - prec) = n := by
      rw [Nat.mul_comm]
      exact Nat.div_add_mod _ _
    have hrlt : n % 2 ^ (nbits n - prec) < 2 ^ (nbits n - prec) :=
      Nat.mod_lt _ (Nat.pos_pow_of_pos _ (by norm_num))
    have hqlt : n / 2 ^ (nbits n - prec) < 2 ^ prec :=
      (magRound_div_bounds (by omega)).1
    have hspos : 0 < 2 ^ (nbits n - prec) := Nat.pos_pow_of_pos _ (by norm_num)
    cases rnd with
    | toward => exact magRound_exact_core hdm hrlt hqlt _ (fun _ => rfl) (Or.inl rfl)
    | away =>
        by_cases hr0 : n % 2 ^ (nbits n - prec) = 0
        · rw [if_pos hr0]
          exact magRound_exact_core hdm hrlt hqlt _ (fun _ => rfl) (Or.inl rfl)
        · rw [if_neg hr0]
          exact magRound_exact_core hdm hrlt hqlt _
            (fun hc => absurd hc hr0) (Or.inr rfl)
    | near =>
        by_cases h1 : 2 * (n % 2 ^ (nbits n - prec)) < 2 ^ (nbits n - prec)
        · rw [if_pos h1]
          exact magRound_exact_core hdm hrlt hqlt _ (fun _ => rfl) (Or.inl rfl)
        · rw [if_neg h1]
          by_cases h2 : 2 ^ (nbits n - prec) < 2 * (n % 2 ^ (nbits n - prec))
          · rw [if_pos h2]
            exact magRound_exact_core hdm hrlt hqlt _
              (fun hc => by omega) (Or.inr rfl)
          · rw [if_neg h2]
            by_cases h3 : n / 2 ^ (nbits n - prec) % 2 = 0
            · rw [if_pos h3]
              exact magRound_exact_core hdm hrlt hqlt _ (fun _ => rfl) (Or.inl rfl)
            · rw [if_neg h3]
              exact magRound_exact_core hdm hrlt hqlt _
                (fun hc => by omega) (Or.inr rfl)

/-- Rounding an over-long mantissa yields exactly `prec` significant bits. -/
theorem magRound_size {prec : ℕ} (rnd : MagRnd) {n : ℕ} (h : prec < nbits n) :
    nbits (magRound prec rnd n).man = prec := by
  unfold magRound
  rw [if_neg (by omega)]
  have hcases := magRound_q_cases prec rnd n (by omega)
  simp only at hcases ⊢
  set s := nbits n - prec with hs
  set q := n / 2 ^ s with hq
  set r := n % 2 ^ s with hr
  have hqlt : q < 2 ^ prec := (magRound_div_bounds h).1
  have hqge : 1 ≤ prec → 2 ^ (prec - 1) ≤ q := (magRound_div_bounds h).2
  set q' := (match rnd with
      | MagRnd.toward => q
      | MagRnd.away => if r = 0 then q else q + 1
      | MagRnd.near =>
          if 2 * r < 2 ^ s then q
          else if 2 ^ s < 2 * r then q + 1
          else if q % 2 = 0 then q else q + 1) with hq'def
  rcases Nat.eq_zero_or_pos prec with hp0 | hp
  · subst hp0
    norm_num at hqlt
    have hq0 : q = 0 := by omega
    by_cases hov : q' = 2 ^ 0
    · rw [if_pos hov]
      simp only
      rw [hov]
      rfl
    · rw [if_neg hov]
      simp only
      norm_num at hov
      have : q' = 0 := by
        rcases hcases with hc | hc <;> omega
      rw [this, nbits_zero]
  · by_cases hov : q' = 2 ^ prec
    · rw [if_pos hov]
      simp only
      rw [hov]
      have hhalf : 2 ^ prec / 2 = 2 ^ (prec - 1) := by
        obtain ⟨k, rfl⟩ : ∃ k, prec = k + 1 := ⟨prec - 1, by omega⟩
        rw [Nat.pow_succ, Nat.mul_div_cancel _ (by norm_num : 0 < 2)]
        simp
      rw [hhalf, nbits_two_pow]
      omega
    · rw [if_neg hov]
      simp only
      have hup : q' < 2 ^ prec := by
        rcases hcases with hc | hc <;> omega
      have hlow : 2 ^ (prec - 1) ≤ q' := by
        have := hqge hp
        rcases hcases with hc | hc <;> omega
      have h1 : nbits q' ≤ prec := nbits_le_iff.mpr hup
      have h2 : ¬ nbits q' ≤ prec - 1 := by
        rw [nbits_le_iff]
        omega
      omega

/-! ### Signed rounding (`fmpr` values) -/

/-- The five `fmpr` rounding modes: toward zero, away from zero, toward
minus infinity, toward plus infinity, to nearest. -/
inductive FmprRnd where
  | down : FmprRnd
  | up : FmprRnd
  | floor : FmprRnd
  | ceil : FmprRnd
  | near : FmprRnd
  deriving Repr, DecidableEq

/-- Magnitude direction of an `fmpr` rounding mode applied to a value of the
given sign. -/
def magRndOf (rnd : FmprRnd) (negative : Bool) : MagRnd :=
  match rnd with
  | .down => .toward
  | .up => .away
  | .floor => if negative then .away else .toward
  | .ceil => if negative then .toward else .away
  | .near => .near

/-- Modelled from the spec: rounding of an `fmpr` value to `prec` bits under
an `fmpr` rounding mode, returning the rounded value together with an upper
bound on the rounding error (one unit in the last place, or zero when
exact). -/
def fmprRound (prec : ℕ) (rnd : FmprRnd) (x : Fmpr) : Fmpr × Fmpr :=
  let neg : Bool := decide (x.man < 0)
  let res := magRound prec (magRndOf rnd neg) x.man.natAbs
  let rounded : Fmpr := ⟨if neg then -(res.man : ℤ) else (res.man : ℤ),
                          x.exp + res.shift⟩
  let err : Fmpr := if res.exact then ⟨0, 0⟩
                    else ⟨1, x.exp + ((nbits x.man.natAbs - prec : ℕ) : ℤ)⟩
  (rounded, err)

theorem fmprVal_zero : fmprVal ⟨0, 0⟩ = 0 := by
  simp [fmprVal]

/-- The rounded midpoint differs from the exact value by at most the returned
error bound. -/
theorem fmprRound_err (prec : ℕ) (rnd : FmprRnd) (x : Fmpr) :
    |fmprVal x - fmprVal (fmprRound prec rnd x).1|
      ≤ fmprVal (fmprRound prec rnd x).2 := by
  unfold fmprRound
  simp only
  set neg : Bool := decide (x.man < 0) with hneg
  set res := magRound prec (magRndOf rnd neg) x.man.natAbs with hres
  have herr := magRound_err prec (magRndOf rnd neg) x.man.natAbs
  rw [← hres] at herr
  have hmanabs : ((x.man.natAbs : ℤ) : ℚ) = |(x.man : ℚ)| := by
    rw [Int.cast_natAbs]
    push_cast
    rfl
  by_cases hex : res.exact = true
  · -- exact: the value is recovered exactly, the error bound is zero
    rw [if_pos hex]
    have hval : res.man * 2 ^ res.shift = x.man.natAbs := by
      have := (magRound_exact_iff prec (magRndOf rnd neg) x.man.natAbs).mp
      rw [← hres] at this
      exact this hex
    have hrec : fmprVal ⟨if neg then -(res.man : ℤ) else (res.man : ℤ),
        x.exp + res.shift⟩ = fmprVal x := by
      simp only [fmprVal]
      rw [zpow_add₀ (by norm_num : (2 : ℚ) ≠ 0)]
      by_cases hn : neg = true
      · rw [if_pos hn]
        have hx : (x.man : ℚ) = -(x.man.natAbs : ℚ) := by
          have hlt : x.man < 0 := by
            rw [hneg] at hn
            exact of_decide_eq_true hn
          rw [Int.cast_natAbs]
          push_cast
          rw [abs_of_neg (by exact_mod_cast hlt)]
          ring
        rw [hx]
        have : ((res.man : ℚ)) * 2 ^ (res.shift : ℤ) = (x.man.natAbs : ℚ) := by
          exact_mod_cast hval
        push_cast
        nlinarith [this, two_zpow_pos x.exp]
      · rw [if_neg hn]
        have hge : 0 ≤ x.man := by
          rw [hneg] at hn
          by_contra hc
          push_neg at hc
          exact hn (decide_eq_true hc)
        have hx : (x.man : ℚ) = (x.man.natAbs : ℚ) := by
          rw [Int.cast_natAbs]
          push_cast
          rw [abs_of_nonneg (by exact_mod_cast hge)]
        rw [hx]
        have : ((res.man : ℚ)) * 2 ^ (res.shift : ℤ) = (x.man.natAbs : ℚ) := by
          exact_mod_cast hval
        push_cast
        nlinarith [this, two_zpow_pos x.exp]
    rw [hrec]
    simp [fmprVal_zero]
  · rw [if_neg hex]
    -- inexact: bound by one ulp of the discarded portion
    have h1 : (res.man * 2 ^ res.shift : ℚ)
        ≤ (x.man.natAbs : ℚ) + 2 ^ (nbits x.man.natAbs - prec) := by
      exact_mod_cast herr.1
    have h2 : ((x.man.natAbs : ℚ))
        ≤ res.man * 2 ^ res.shift + 2 ^ (nbits x.man.natAbs - prec) := by
      exact_mod_cast herr.2
    simp only [fmprVal]
    rw [zpow_add₀ (by norm_num : (2 : ℚ) ≠ 0), zpow_add₀ (by norm_num : (2 : ℚ) ≠ 0)]
    have hd : (x.man : ℚ) * 2 ^ x.exp -
        (if neg then -(res.man : ℤ) else (res.man : ℤ) : ℤ) *
          (2 ^ x.exp * 2 ^ (res.shift : ℤ)) =
        ((x.man : ℚ) - (if neg then -(res.man : ℤ) else (res.man : ℤ) : ℤ) *
          2 ^ (res.shift : ℤ)) * 2 ^ x.exp := by
      ring
    rw [hd, abs_mul, abs_of_pos (two_zpow_pos x.exp)]
    have hb : |(x.man : ℚ) - (if neg then -(res.man : ℤ) else (res.man : ℤ) : ℤ) *
        2 ^ (res.shift : ℤ)| ≤ (2 : ℚ) ^ ((nbits x.man.natAbs - prec : ℕ) : ℤ) := by
      have hzp : ((2 : ℚ) ^ (res.shift : ℤ)) = ((2 ^ res.shift : ℕ) : ℚ) := by
        norm_cast
      have hzp2 : ((2 : ℚ) ^ ((nbits x.man.natAbs - prec : ℕ) : ℤ))
          = ((2 ^ (nbits x.man.natAbs - prec) : ℕ) : ℚ) := by
        norm_cast
      rw [hzp, hzp2]
      by_cases hn : neg = true
      · rw [if_pos hn]
        have hlt : x.man < 0 := by
          rw [hneg] at hn
          exact of_decide_eq_true hn
        have hx : (x.man : ℚ) = -(x.man.natAbs : ℚ) := by
          rw [Int.cast_natAbs]
          push_cast
          rw [abs_of_neg (by exact_mod_cast hlt)]
          ring
        rw [hx]
        rw [abs_sub_le_iff]
        push_cast
        constructor
        · nlinarith [h1, h2]
        · nlinarith [h1, h2]
      · rw [if_neg hn]
        have hge : 0 ≤ x.man := by
          rw [hneg] at hn
          by_contra hc
          push_neg at hc
          exact hn (decide_eq_true hc)
        have hx : (x.man : ℚ) = (x.man.natAbs : ℚ) := by
          rw [Int.cast_natAbs]
          push_cast
          rw [abs_of_nonneg (by exact_mod_cast hge)]
        rw [hx]
        rw [abs_sub_le_iff]
        push_cast
        constructor
        · nlinarith [h1, h2]
        · nlinarith [h1, h2]
    have hfin : ((1 : ℤ) : ℚ) * (2 ^ x.exp * 2 ^ ((nbits x.man.natAbs - prec : ℕ) : ℤ))
        = (2 : ℚ) ^ ((nbits x.man.natAbs - prec : ℕ) : ℤ) * 2 ^ x.exp := by
      push_cast
      ring
    rw [hfin]
    exact mul_le_mul_of_nonneg_right hb (le_of_lt (two_zpow_pos x.exp))

theorem fmprRound_err_nonneg (prec : ℕ) (rnd : FmprRnd) (x : Fmpr) :
    0 ≤ fmprVal (fmprRound prec rnd x).2 := by
  unfold fmprRound
  simp only
  by_cases hex : (magRound prec (magRndOf rnd (decide (x.man < 0))) x.man.natAbs).exact = true
  · rw [if_pos hex, fmprVal_zero]
  · rw [if_neg hex]
    unfold fmprVal
    simp only
    push_cast
    positivity

/-- Modelled from the spec: upward (away-from-zero) rounding used for radius
arithmetic — "Radius arithmetic must always round away from zero (upward)".
The result is always at least the input value. -/
def fmprRoundUp (prec : ℕ) (x : Fmpr) : Fmpr :=
  if nbits x.man.natAbs ≤ prec then x
  else
    let s := nbits x.man.natAbs - prec
    ⟨((x.man.toNat + 2 ^ s - 1) / 2 ^ s : ℕ), x.exp + (s : ℤ)⟩

/-- Upward rounding never decreases the value. -/
theorem fmprRoundUp_ge (prec : ℕ) (x : Fmpr) :
    fmprVal x ≤ fmprVal (fmprRoundUp prec x) := by
  unfold fmprRoundUp
  by_cases h : nbits x.man.natAbs ≤ prec
  · rw [if_pos h]
  · rw [if_neg h]
    simp only
    set s := nbits x.man.natAbs - prec with hs
    rcases le_or_lt x.man 0 with hm | hm
    · -- nonpositive mantissa: result is nonnegative
      have ht : x.man.toNat = 0 := Int.toNat_of_nonpos hm
      have hq : (x.man.toNat + 2 ^ s - 1) / 2 ^ s = 0 := by
        rw [ht]
        apply Nat.div_eq_of_lt
        have hp : 0 < 2 ^ s := Nat.pos_pow_of_pos _ (by norm_num)
        omega
      rw [hq]
      unfold fmprVal
      simp only [Int.cast_natCast, Nat.cast_zero, Int.cast_zero, zero_mul]
      have : (x.man : ℚ) ≤ 0 := by exact_mod_cast hm
      nlinarith [two_zpow_pos x.exp]
    · -- positive mantissa: ceiling division bound
      have ht : (x.man.toNat : ℤ) = x.man := Int.toNat_of_nonneg (le_of_lt hm)
      set m := x.man.toNat with hmdef
      set d := 2 ^ s with hd
      have hdpos : 0 < d := Nat.pos_pow_of_pos _ (by norm_num)
      have hkey : m ≤ (m + d - 1) / d * d := by
        by_contra hc
        push_neg at hc
        have h1 : d * ((m + d - 1) / d) + (m + d - 1) % d = m + d - 1 :=
          Nat.div_add_mod _ _
        have h2 : (m + d - 1) % d < d := Nat.mod_lt _ hdpos
        have h3 : (m + d - 1) / d * d = d * ((m + d - 1) / d) := Nat.mul_comm _ _
        omega
      unfold fmprVal
      simp only
      rw [zpow_add₀ (by norm_num : (2 : ℚ) ≠ 0)]
      have hcast : ((d : ℚ)) = (2 : ℚ) ^ (s : ℤ) := by
        rw [hd]
        norm_cast
      have hq2 : ((m : ℚ)) ≤ (((m + d - 1) / d : ℕ) : ℚ) * (2 : ℚ) ^ (s : ℤ) := by
        rw [← hcast]
        exact_mod_cast hkey
      have hxm : ((x.man : ℚ)) = ((m : ℚ)) := by
        exact_mod_cast ht.symm
      push_cast
      rw [hxm]
      calc ((m : ℚ)) * 2 ^ x.exp
          ≤ (((m + d - 1) / d : ℕ) : ℚ) * (2 : ℚ) ^ (s : ℤ) * 2 ^ x.exp :=
            mul_le_mul_of_nonneg_right hq2 (le_of_lt (two_zpow_pos x.exp))
      _ = (((m + d - 1) / d : ℕ) : ℚ) * (2 ^ x.exp * 2 ^ (s : ℤ)) := by ring

/-! ## The Ball Arithmetic Layer (`fmprb`)

The `fmprb` operations are called by `evaluate_vec_fast.c` but their code is
not part of the repository snapshot.  They are modelled from the spec, §4.3:
a binary operation computes a rounded midpoint via the float kernel at the
caller's working precision, captures the rounding error, propagates the input
radii through the operation's local sensitivity (for multiplication
`|m1|·r2 + |m2|·r1 + r1·r2`), and sums everything, rounded upward, as the new
radius. -/

/-- A ball: midpoint and radius, both `fmpr` values. -/
structure Fmprb where
  mid : Fmpr
  rad : Fmpr
  deriving Repr, DecidableEq

/-- The enclosure predicate: the real value `v` lies within
`[midpoint - radius, midpoint + radius]`. -/
def fmprbContains (v : ℚ) (b : Fmprb) : Prop :=
  |v - fmprVal b.mid| ≤ fmprVal b.rad

instance (v : ℚ) (b : Fmprb) : Decidable (fmprbContains v b) := by
  unfold fmprbContains
  infer_instance

/-- The exact zero ball. -/
def fmprb_zero : Fmprb := ⟨⟨0, 0⟩, ⟨0, 0⟩⟩

/-- The exact one ball. -/
def fmprb_one : Fmprb := ⟨⟨1, 0⟩, ⟨0, 0⟩⟩

/-- Modelled from the spec: `fmprb_mul` — rounded midpoint product plus the
propagated radius `|m1|·r2 + |m2|·r1 + r1·r2` plus the midpoint rounding
error, rounded upward. -/
def fmprb_mul (a b : Fmprb) (prec : ℕ) : Fmprb :=
  let rm := fmprRound prec FmprRnd.down (fmprMulExact a.mid b.mid)
  ⟨rm.1, fmprRoundUp prec (fmprAddExact (fmprAddExact (fmprAddExact
      (fmprMulExact (fmprAbsExact a.mid) b.rad)
      (fmprMulExact (fmprAbsExact b.mid) a.rad))
      (fmprMulExact a.rad b.rad)) rm.2)⟩

/-- Modelled from the spec: `fmprb_add` — rounded midpoint sum plus the sum
of the radii plus the midpoint rounding error, rounded upward. -/
def fmprb_add (a b : Fmprb) (prec : ℕ) : Fmprb :=
  let rm := fmprRound prec FmprRnd.down (fmprAddExact a.mid b.mid)
  ⟨rm.1, fmprRoundUp prec (fmprAddExact (fmprAddExact a.rad b.rad) rm.2)⟩

/-- Modelled from the spec: `fmprb_neg` — negation is exact (negated
midpoint, unchanged radius). -/
def fmprb_neg (a : Fmprb) : Fmprb := ⟨fmprNegExact a.mid, a.rad⟩

/-- Modelled from the spec: `fmprb_sub` — subtraction as addition of the
negation. -/
def fmprb_sub (a b : Fmprb) (prec : ℕ) : Fmprb := fmprb_add a (fmprb_neg b) prec

/-- Triangle-style bound for the product of two enclosed values. -/
theorem mul_enclosure_q (x y ma mb ra rb : ℚ)
    (hx : |x - ma| ≤ ra) (hy : |y - mb| ≤ rb) :
    |x * y - ma * mb| ≤ |ma| * rb + |mb| * ra + ra * rb := by
  have h1 : x * y - ma * mb = ma * (y - mb) + mb * (x - ma) + (x - ma) * (y - mb) := by
    ring
  have hra : 0 ≤ ra := le_trans (abs_nonneg _) hx
  have hrb : 0 ≤ rb := le_trans (abs_nonneg _) hy
  rw [h1]
  calc |ma * (y - mb) + mb * (x - ma) + (x - ma) * (y - mb)|
      ≤ |ma * (y - mb) + mb * (x - ma)| + |(x - ma) * (y - mb)| := abs_add _ _
  _ ≤ |ma * (y - mb)| + |mb * (x - ma)| + |(x - ma) * (y - mb)| := by
      have := abs_add (ma * (y - mb)) (mb * (x - ma))
      linarith
  _ = |ma| * |y - mb| + |mb| * |x - ma| + |x - ma| * |y - mb| := by
      rw [abs_mul, abs_mul, abs_mul]
  _ ≤ |ma| * rb + |mb| * ra + ra * rb := by
      have h2 : |ma| * |y - mb| ≤ |ma| * rb :=
        mul_le_mul_of_nonneg_left hy (abs_nonneg _)
      have h3 : |mb| * |x - ma| ≤ |mb| * ra :=
        mul_le_mul_of_nonneg_left hx (abs_nonneg _)
      have h4 : |x - ma| * |y - mb| ≤ ra * rb :=
        mul_le_mul hx hy (abs_nonneg _) hra
      linarith

/-- Enclosure soundness of ball multiplication: if `x ∈ a` and `y ∈ b` then
`x * y ∈ a * b` at any working precision. -/
theorem fmprb_mul_contains {x y : ℚ} {a b : Fmprb} (prec : ℕ)
    (hx : fmprbContains x a) (hy : fmprbContains y b) :
    fmprbContains (x * y) (fmprb_mul a b prec) := by
  unfold fmprbContains at hx hy ⊢
  unfold fmprb_mul
  simp only
  have herr := fmprRound_err prec FmprRnd.down (fmprMulExact a.mid b.mid)
  rw [fmprVal_mulExact] at herr
  have hup := fmprRoundUp_ge prec (fmprAddExact (fmprAddExact (fmprAddExact
      (fmprMulExact (fmprAbsExact a.mid) b.rad)
      (fmprMulExact (fmprAbsExact b.mid) a.rad))
      (fmprMulExact a.rad b.rad)) (fmprRound prec FmprRnd.down (fmprMulExact a.mid b.mid)).2)
  rw [fmprVal_addExact, fmprVal_addExact, fmprVal_addExact,
      fmprVal_mulExact, fmprVal_mulExact, fmprVal_mulExact,
      fmprVal_absExact, fmprVal_absExact] at hup
  have hball := mul_enclosure_q x y (fmprVal a.mid) (fmprVal b.mid)
      (fmprVal a.rad) (fmprVal b.rad) hx hy
  calc |x * y - fmprVal (fmprRound prec FmprRnd.down (fmprMulExact a.mid b.mid)).1|
      ≤ |x * y - fmprVal a.mid * fmprVal b.mid|
        + |fmprVal a.mid * fmprVal b.mid
            - fmprVal (fmprRound prec FmprRnd.down (fmprMulExact a.mid b.mid)).1| := by
        have := abs_sub_le (x * y) (fmprVal a.mid * fmprVal b.mid)
          (fmprVal (fmprRound prec FmprRnd.down (fmprMulExact a.mid b.mid)).1)
        linarith
  _ ≤ (|fmprVal a.mid| * fmprVal b.rad + |fmprVal b.mid| * fmprVal a.rad
        + fmprVal a.rad * fmprVal b.rad)
      + fmprVal (fmprRound prec FmprRnd.down (fmprMulExact a.mid b.mid)).2 := by
        linarith
  _ ≤ fmprVal (fmprRoundUp prec (fmprAddExact (fmprAddExact (fmprAddExact
      (fmprMulExact (fmprAbsExact a.mid) b.rad)
      (fmprMulExact (fmprAbsExact b.mid) a.rad))
      (fmprMulExact a.rad b.rad))
      (fmprRound prec FmprRnd.down (fmprMulExact a.mid b.mid)).2)) := by
        linarith

/-- Enclosure soundness of ball addition. -/
theorem fmprb_add_contains {x y : ℚ} {a b : Fmprb} (prec : ℕ)
    (hx : fmprbContains x a) (hy : fmprbContains y b) :
    fmprbContains (x + y) (fmprb_add a b prec) := by
  unfold fmprbContains at hx hy ⊢
  unfold fmprb_add
  simp only
  have herr := fmprRound_err prec FmprRnd.down (fmprAddExact a.mid b.mid)
  rw [fmprVal_addExact] at herr
  have hup := fmprRoundUp_ge prec (fmprAddExact (fmprAddExact a.rad b.rad)
      (fmprRound prec FmprRnd.down (fmprAddExact a.mid b.mid)).2)
  rw [fmprVal_addExact, fmprVal_addExact] at hup
  have htri : |x + y - (fmprVal a.mid + fmprVal b.mid)|
      ≤ fmprVal a.rad + fmprVal b.rad := by
    have h1 : x + y - (fmprVal a.mid + fmprVal b.mid)
        = (x - fmprVal a.mid) + (y - fmprVal b.mid) := by ring
    rw [h1]
    calc |(x - fmprVal a.mid) + (y - fmprVal b.mid)|
        ≤ |x - fmprVal a.mid| + |y - fmprVal b.mid| := abs_add _ _
    _ ≤ fmprVal a.rad + fmprVal b.rad := by linarith
  calc |x + y - fmprVal (fmprRound prec FmprRnd.down (fmprAddExact a.mid b.mid)).1|
      ≤ |x + y - (fmprVal a.mid + fmprVal b.mid)|
        + |fmprVal a.mid + fmprVal b.mid
            - fmprVal (fmprRound prec FmprRnd.down (fmprAddExact a.mid b.mid)).1| := by
        have := abs_sub_le (x + y) (fmprVal a.mid + fmprVal b.mid)
          (fmprVal (fmprRound prec FmprRnd.down (fmprAddExact a.mid b.mid)).1)
        linarith
  _ ≤ (fmprVal a.rad + fmprVal b.rad)
      + fmprVal (fmprRound prec FmprRnd.down (fmprAddExact a.mid b.mid)).2 := by
        linarith
  _ ≤ fmprVal (fmprRoundUp prec (fmprAddExact (fmprAddExact a.rad b.rad)
      (fmprRound prec FmprRnd.down (fmprAddExact a.mid b.mid)).2)) := by
        linarith

/-- Enclosure soundness of ball negation (which is exact). -/
theorem fmprb_neg_contains {x : ℚ} {a : Fmprb}
    (hx : fmprbContains x a) : fmprbContains (-x) (fmprb_neg a) := by
  unfold fmprbContains at hx ⊢
  unfold fmprb_neg
  simp only
  rw [fmprVal_negExact]
  have h1 : -x - -fmprVal a.mid = -(x - fmprVal a.mid) := by ring
  rw [h1, abs_neg]
  exact hx

/-- Enclosure soundness of ball subtraction. -/
theorem fmprb_sub_contains {x y : ℚ} {a b : Fmprb} (prec : ℕ)
    (hx : fmprbContains x a) (hy : fmprbContains y b) :
    fmprbContains (x - y) (fmprb_sub a b prec) := by
  unfold fmprb_sub
  have h1 : x - y = x + (-y) := by ring
  rw [h1]
  exact fmprb_add_contains prec hx (fmprb_neg_contains hy)

theorem fmprb_zero_contains : fmprbContains 0 fmprb_zero := by
  unfold fmprbContains fmprb_zero
  simp [fmprVal_zero]

theorem fmprb_one_contains : fmprbContains 1 fmprb_one := by
  unfold fmprbContains fmprb_one
  simp [fmprVal, fmprVal_zero]

/-! ## Limb-level mantissa multiplication (`src/fmpr/mul_mpn.c`) -/

/-- Bits per machine limb (`mp_limb_t`). -/
def mpLimbBits : ℕ := 64

/-- Little-endian limb decomposition of a natural number into `n` limbs
(the contents written by `mpn_mul` into a scratch buffer of length `n`). -/
def limbsOf : ℕ → ℕ → List ℕ
  | _, 0 => []
  | p, n + 1 => p % 2 ^ mpLimbBits :: limbsOf (p / 2 ^ mpLimbBits) n

/-- The value denoted by a little-endian limb list. -/
def limbsVal : List ℕ → ℕ
  | [] => 0
  | l :: ls => l + 2 ^ mpLimbBits * limbsVal ls

theorem limbsOf_length (p n : ℕ) : (limbsOf p n).length = n := by
  induction n generalizing p with
  | zero => rfl
  | succ n ih =>
      unfold limbsOf
      simp [ih]

theorem limbsVal_limbsOf {p n : ℕ} (h : p < 2 ^ (mpLimbBits * n)) :
    limbsVal (limbsOf p n) = p := by
  induction n generalizing p with
  | zero =>
      unfold limbsOf limbsVal
      simp only [Nat.mul_zero, Nat.pow_zero] at h
      omega
  | succ n ih =>
      unfold limbsOf limbsVal
      have hdiv : p / 2 ^ mpLimbBits < 2 ^ (mpLimbBits * n) := by
        rw [Nat.div_lt_iff_lt_mul (Nat.pos_pow_of_pos _ (by norm_num))]
        calc p < 2 ^ (mpLimbBits * (n + 1)) := h
        _ = 2 ^ (mpLimbBits * n) * 2 ^ mpLimbBits := by
            rw [← Nat.pow_add, Nat.mul_succ]
      rw [ih hdiv]
      have := Nat.div_add_mod p (2 ^ mpLimbBits)
      omega

theorem limbsOf_snoc (p n : ℕ) :
    limbsOf p (n + 1) = limbsOf p n ++ [p / 2 ^ (mpLimbBits * n) % 2 ^ mpLimbBits] := by
  induction n generalizing p with
  | zero =>
      simp [limbsOf]
  | succ n ih =>
      rw [limbsOf]
      rw [ih (p / 2 ^ mpLimbBits)]
      rw [limbsOf]
      simp only [List.cons_append]
      congr 3
      rw [Nat.div_div_eq_div_mul, ← Nat.pow_add,
        show mpLimbBits + mpLimbBits * n = mpLimbBits * (n + 1) from by ring]

/-- The limbs written by the `mpn_mul_1` fast path: `xn` product limbs plus
the returned carry stored into `tmp[zn - 1]`. -/
def mul1Written (xman y0 xn : ℕ) : List ℕ :=
  limbsOf (xman * y0) xn ++ [xman * y0 / 2 ^ (mpLimbBits * xn)]

/-- With a one-limb multiplier, the `mpn_mul_1` carry store writes exactly
the `xn + 1` limbs of the product. -/
theorem mul1Written_eq {xman y0 xn : ℕ} (hx : xman < 2 ^ (mpLimbBits * xn))
    (hy : y0 < 2 ^ mpLimbBits) :
    mul1Written xman y0 xn = limbsOf (xman * y0) (xn + 1) := by
  unfold mul1Written
  rw [limbsOf_snoc]
  have hlt : xman * y0 / 2 ^ (mpLimbBits * xn) < 2 ^ mpLimbBits := by
    rw [Nat.div_lt_iff_lt_mul (Nat.pos_pow_of_pos _ (by norm_num))]
    have h1 : xman * y0 < 2 ^ (mpLimbBits * xn) * 2 ^ mpLimbBits :=
      Nat.mul_lt_mul_of_lt_of_lt hx hy
    have h2 : 2 ^ (mpLimbBits * xn) * 2 ^ mpLimbBits
        = 2 ^ mpLimbBits * 2 ^ (mpLimbBits * xn) := Nat.mul_comm _ _
    omega
  rw [Nat.mod_eq_of_lt hlt]

/-- Result of `_fmpr_mul_mpn`: rounded mantissa, discarded-bit shift, final
exponent, sign flag, exactness flag, and the stripped limb count `zn` passed
to the rounding step. -/
structure FmprMulMpnResult where
  man : ℕ
  shift : ℕ
  exp : ℤ
  negative : Bool
  exact : Bool
  zlen : ℕ
  deriving Repr, DecidableEq

/-- Modelled from the spec: `_fmpr_set_round_mpn` — round a nonnegative
mantissa to `prec` bits under an `fmpr` rounding mode resolved against the
result sign. -/
def fmpr_set_round_mpn (negative : Bool) (p : ℕ) (prec : ℕ)
    (rnd : FmprRnd) : MagRoundResult :=
  magRound prec (magRndOf rnd negative) p

/-- Shallow embedding of `_fmpr_mul_mpn` (`src/fmpr/mul_mpn.c`), numeric
part: compute the full product limb array (via the `mpn_mul_1` carry path
when `yn == 1`, the general `mpn_mul` path otherwise), strip one leading
zero limb if present, round to `prec` bits, and add the discard shift into
the exponent sum. -/
def fmprMulMpn (xman : ℕ) (xn : ℕ) (xexp : ℤ) (yman : ℕ) (yn : ℕ) (yexp : ℤ)
    (negative : Bool) (prec : ℕ) (rnd : FmprRnd) : FmprMulMpnResult :=
  let zn := xn + yn
  let tmp := if yn = 1 then mul1Written xman yman xn
             else limbsOf (xman * yman) zn
  let top := tmp.getLastD 0
  let zn1 := zn - (if top = 0 then 1 else 0)
  let p := limbsVal (tmp.take zn1)
  let res := fmpr_set_round_mpn negative p prec rnd
  ⟨res.man, res.shift, xexp + yexp + res.shift, negative, res.exact, zn1⟩

/-- The general-path variant of `_fmpr_mul_mpn` that always uses the
`mpn_mul` code path, bypassing the `yn == 1` fast path. -/
def fmprMulMpnGeneral (xman : ℕ) (xn : ℕ) (xexp : ℤ) (yman : ℕ) (yn : ℕ)
    (yexp : ℤ) (negative : Bool) (prec : ℕ) (rnd : FmprRnd) : FmprMulMpnResult :=
  let zn := xn + yn
  let tmp := limbsOf (xman * yman) zn
  let top := tmp.getLastD 0
  let zn1 := zn - (if top = 0 then 1 else 0)
  let p := limbsVal (tmp.take zn1)
  let res := fmpr_set_round_mpn negative p prec rnd
  ⟨res.man, res.shift, xexp + yexp + res.shift, negative, res.exact, zn1⟩

theorem getLastD_limbsOf {p n : ℕ} (h : p < 2 ^ (mpLimbBits * (n + 1))) :
    (limbsOf p (n + 1)).getLastD 0 = p / 2 ^ (mpLimbBits * n) := by
  rw [limbsOf_snoc]
  rw [List.getLastD_concat]
  apply Nat.mod_eq_of_lt
  rw [Nat.div_lt_iff_lt_mul (Nat.pos_pow_of_pos _ (by norm_num))]
  calc p < 2 ^ (mpLimbBits * (n + 1)) := h
  _ = 2 ^ mpLimbBits * 2 ^ (mpLimbBits * n) := by
      rw [← Nat.pow_add]
      congr 1
      ring

theorem take_limbsOf (p n : ℕ) : (limbsOf p (n + 1)).take n = limbsOf p n := by
  rw [limbsOf_snoc]
  have h := List.take_left (limbsOf p n) [p / 2 ^ (mpLimbBits * n) % 2 ^ mpLimbBits]
  rwa [limbsOf_length] at h

/-- Normalization predicate for an `mpn` mantissa of `n` limbs: the top bit
of the most significant limb is set. -/
def mpnNormalized (x n : ℕ) : Prop :=
  2 ^ (mpLimbBits * n - 1) ≤ x ∧ x < 2 ^ (mpLimbBits * n)

instance (x n : ℕ) : Decidable (mpnNormalized x n) := by
  unfold mpnNormalized
  infer_instance

theorem mpnNormalized_pos_len {x n : ℕ} (h : mpnNormalized x n) : 1 ≤ n := by
  rcases h with ⟨h1, h2⟩
  by_contra hc
  push_neg at hc
  interval_cases n
  simp at h1 h2
  omega

/-- `_fmpr_mul_mpn` computes exactly the rounding of the full product
`xman * yman`, through either limb path, and its stripped limb count tests
precisely the topmost limb of the product. -/
theorem fmprMulMpn_spec {xman xn yman yn : ℕ} (xexp yexp : ℤ) (negative : Bool)
    (prec : ℕ) (rnd : FmprRnd)
    (hx : xman < 2 ^ (mpLimbBits * xn)) (hy : yman < 2 ^ (mpLimbBits * yn))
    (hn : 1 ≤ xn + yn) :
    fmprMulMpn xman xn xexp yman yn yexp negative prec rnd =
      ⟨(magRound prec (magRndOf rnd negative) (xman * yman)).man,
       (magRound prec (magRndOf rnd negative) (xman * yman)).shift,
       xexp + yexp + ((magRound prec (magRndOf rnd negative) (xman * yman)).shift : ℤ),
       negative,
       (magRound prec (magRndOf rnd negative) (xman * yman)).exact,
       (xn + yn) -
         (if xman * yman / 2 ^ (mpLimbBits * (xn + yn - 1)) = 0 then 1 else 0)⟩ := by
  have hP : xman * yman < 2 ^ (mpLimbBits * (xn + yn)) := by
    calc xman * yman < 2 ^ (mpLimbBits * xn) * 2 ^ (mpLimbBits * yn) :=
          Nat.mul_lt_mul_of_lt_of_lt hx hy
    _ = 2 ^ (mpLimbBits * (xn + yn)) := by
        rw [← Nat.pow_add]
        congr 1
        ring
  have htmp : (if yn = 1 then mul1Written xman yman xn
      else limbsOf (xman * yman) (xn + yn)) = limbsOf (xman * yman) (xn + yn) := by
    by_cases h1 : yn = 1
    · rw [if_pos h1]
      subst h1
      rw [mul1Written_eq hx (by rw [← Nat.mul_one mpLimbBits]; exact hy)]
    · rw [if_neg h1]
  unfold fmprMulMpn fmpr_set_round_mpn
  simp only [htmp]
  obtain ⟨m, hm⟩ : ∃ m, xn + yn = m + 1 := ⟨xn + yn - 1, by omega⟩
  rw [hm]
  have hP' : xman * yman < 2 ^ (mpLimbBits * (m + 1)) := by
    rw [← hm]
    exact hP
  rw [getLastD_limbsOf hP']
  have hstrip : limbsVal ((limbsOf (xman * yman) (m + 1)).take
      ((m + 1) - if xman * yman / 2 ^ (mpLimbBits * m) = 0 then 1 else 0))
      = xman * yman := by
    by_cases htop : xman * yman / 2 ^ (mpLimbBits * m) = 0
    · rw [if_pos htop]
      simp only [Nat.add_sub_cancel]
      rw [take_limbsOf]
      apply limbsVal_limbsOf
      have := (Nat.div_eq_zero_iff (Nat.pos_pow_of_pos (mpLimbBits * m) (by norm_num))).mp htop
      exact this
    · rw [if_neg htop]
      simp only [Nat.sub_zero]
      rw [List.take_of_length_le (by rw [limbsOf_length])]
      exact limbsVal_limbsOf hP'
  rw [hstrip]
  have hm1 : m + 1 - 1 = m := by omega
  rw [hm1]

/-- `_fmpr_mul_mpn` agrees with its general-path variant whenever the second
operand is a single limb: the `mpn_mul_1` fast path computes the same
product limbs as `mpn_mul` would. -/
theorem fmprMulMpn_mul1_path_eq {xman xn yman : ℕ} (xexp yexp : ℤ)
    (negative : Bool) (prec : ℕ) (rnd : FmprRnd)
    (hx : xman < 2 ^ (mpLimbBits * xn)) (hy : yman < 2 ^ mpLimbBits) :
    fmprMulMpn xman xn xexp yman 1 yexp negative prec rnd =
    fmprMulMpnGeneral xman xn xexp yman 1 yexp negative prec rnd := by
  unfold fmprMulMpn fmprMulMpnGeneral
  rw [mul1Written_eq hx hy]
  simp only [ite_self]

/-! ## The tiered scratch-buffer manager (`MUL_TMP_ALLOC` / `MUL_TMP_FREE`)

`src/fmpr/mul_mpn.c` keeps a process-wide (`TLS_PREFIX`) scratch buffer
`__mul_tmp` with tracked capacity `__mul_alloc`, picks one of three tiers by
the requested size, and frees only the heap tier before returning. -/

/-- `MUL_STACK_ALLOC` from `src/fmpr/mul_mpn.c`. -/
def MUL_STACK_ALLOC : ℕ := 40

/-- `MUL_TLS_ALLOC` from `src/fmpr/mul_mpn.c`. -/
def MUL_TLS_ALLOC : ℕ := 1000

/-- The three scratch tiers of `MUL_TMP_ALLOC`. -/
inductive MulTmpTier where
  | stack : MulTmpTier
  | tls : MulTmpTier
  | heap : MulTmpTier
  deriving Repr, DecidableEq

/-- The process-wide mutable state of the buffer manager: the cache buffer
`__mul_tmp` (modelled by its limb contents), its tracked capacity
`__mul_alloc`, and whether the exit cleanup callback has been registered. -/
structure MulTmpState where
  mulTmp : List ℕ
  mulAlloc : ℕ
  cleanupRegistered : Bool
  deriving Repr, DecidableEq

/-- `_mul_tmp_cleanup`: free the cache buffer and reset the tracked capacity
to zero. -/
def mul_tmp_cleanup (s : MulTmpState) : MulTmpState :=
  ⟨[], 0, s.cleanupRegistered⟩

/-- The `MUL_TMP_ALLOC` macro: choose a tier for a request of `alloc` limbs
and update the cache state (growing the cache buffer and registering the
cleanup callback on the tier's first use).  Thresholds are parameters so
that threshold-independence of numeric results can be stated. -/
def mulTmpAllocTier (stackT tlsT : ℕ) (alloc : ℕ) (s : MulTmpState) :
    MulTmpTier × MulTmpState :=
  if alloc ≤ stackT then (MulTmpTier.stack, s)
  else if alloc ≤ tlsT then
    if s.mulAlloc < alloc then
      (MulTmpTier.tls,
        ⟨s.mulTmp ++ List.replicate (alloc - s.mulTmp.length) 0, alloc,
         if s.mulAlloc = 0 then true else s.cleanupRegistered⟩)
    else (MulTmpTier.tls, s)
  else (MulTmpTier.heap, s)

/-- The `MUL_TMP_FREE` macro: the scratch is freed before return exactly on
the heap tier. -/
def mulTmpFree (tlsT : ℕ) (alloc : ℕ) : Bool := decide (tlsT < alloc)

/-- Full outcome of a `_fmpr_mul_mpn` call: numeric result, the tier used,
and whether a heap buffer was freed before returning. -/
structure FmprMulMpnOutcome where
  res : FmprMulMpnResult
  tier : MulTmpTier
  heapFreed : Bool
  deriving Repr, DecidableEq

/-- Shallow embedding of `_fmpr_mul_mpn` including its scratch-buffer
management: acquire a scratch tier, write the product limbs into that tier's
buffer, read them back for stripping and rounding, and free the heap tier.
On the `tls` tier the write and read go through the process-wide buffer. -/
def fmprMulMpnWithState (stackT tlsT : ℕ) (xman : ℕ) (xn : ℕ) (xexp : ℤ)
    (yman : ℕ) (yn : ℕ) (yexp : ℤ) (negative : Bool) (prec : ℕ)
    (rnd : FmprRnd) (s : MulTmpState) : FmprMulMpnOutcome × MulTmpState :=
  let zn := xn + yn
  let alloc := zn
  let ts := mulTmpAllocTier stackT tlsT alloc s
  let written := if yn = 1 then mul1Written xman yman xn
                 else limbsOf (xman * yman) zn
  let s2 := if ts.1 = MulTmpTier.tls then
              ⟨written ++ ts.2.mulTmp.drop zn, ts.2.mulAlloc, ts.2.cleanupRegistered⟩
            else ts.2
  let tmp := if ts.1 = MulTmpTier.tls then s2.mulTmp.take zn else written
  let top := tmp.getLastD 0
  let zn1 := zn - (if top = 0 then 1 else 0)
  let p := limbsVal (tmp.take zn1)
  let res := fmpr_set_round_mpn negative p prec rnd
  (⟨⟨res.man, res.shift, xexp + yexp + res.shift, negative, res.exact, zn1⟩,
    ts.1, mulTmpFree tlsT alloc⟩, s2)

theorem written_length (xman yman xn yn : ℕ) :
    (if yn = 1 then mul1Written xman yman xn
     else limbsOf (xman * yman) (xn + yn)).length = xn + yn := by
  by_cases h : yn = 1
  · rw [if_pos h, h]
    unfold mul1Written
    rw [List.length_append, limbsOf_length]
    rfl
  · rw [if_neg h, limbsOf_length]

/-- The limbs read back from the scratch buffer are exactly the limbs
written, on every tier: the numeric part of the call never sees the tier. -/
theorem fmprMulMpnWithState_res (stackT tlsT : ℕ) (xman xn : ℕ) (xexp : ℤ)
    (yman yn : ℕ) (yexp : ℤ) (negative : Bool) (prec : ℕ) (rnd : FmprRnd)
    (s : MulTmpState) :
    (fmprMulMpnWithState stackT tlsT xman xn xexp yman yn yexp negative prec
      rnd s).1.res =
    fmprMulMpn xman xn xexp yman yn yexp negative prec rnd := by
  unfold fmprMulMpnWithState fmprMulMpn
  simp only
  set written := if yn = 1 then mul1Written xman yman xn
                 else limbsOf (xman * yman) (xn + yn) with hw
  have hlen : written.length = xn + yn := written_length xman yman xn yn
  by_cases htier : (mulTmpAllocTier stackT tlsT (xn + yn) s).1 = MulTmpTier.tls
  · rw [if_pos htier, if_pos htier]
    simp only
    have htake : (written ++ ((mulTmpAllocTier stackT tlsT (xn + yn) s).2.mulTmp.drop
        (xn + yn))).take (xn + yn) = written := by
      rw [List.take_append_eq_append_take, hlen, Nat.sub_self, List.take_zero,
        List.append_nil]
      exact List.take_of_length_le (le_of_eq hlen)
    rw [htake]
  · rw [if_neg htier]

/-- `MUL_TMP_ALLOC` never decreases the tracked cache capacity. -/
theorem mulTmpAllocTier_mono (stackT tlsT alloc : ℕ) (s : MulTmpState) :
    s.mulAlloc ≤ ((mulTmpAllocTier stackT tlsT alloc s).2).mulAlloc := by
  unfold mulTmpAllocTier
  by_cases h1 : alloc ≤ stackT
  · rw [if_pos h1]
  · rw [if_neg h1]
    by_cases h2 : alloc ≤ tlsT
    · rw [if_pos h2]
      by_cases h3 : s.mulAlloc < alloc
      · rw [if_pos h3]
        simp only
        omega
      · rw [if_neg h3]
    · rw [if_neg h2]

/-- A full `_fmpr_mul_mpn` call never decreases the tracked cache capacity. -/
theorem fmprMulMpnWithState_mono (stackT tlsT : ℕ) (xman xn : ℕ) (xexp : ℤ)
    (yman yn : ℕ) (yexp : ℤ) (negative : Bool) (prec : ℕ) (rnd : FmprRnd)
    (s : MulTmpState) :
    s.mulAlloc ≤ ((fmprMulMpnWithState stackT tlsT xman xn xexp yman yn yexp
      negative prec rnd s).2).mulAlloc := by
  unfold fmprMulMpnWithState
  simp only
  have hmono := mulTmpAllocTier_mono stackT tlsT (xn + yn) s
  by_cases htier : (mulTmpAllocTier stackT tlsT (xn + yn) s).1 = MulTmpTier.tls
  · rw [if_pos htier]
    exact hmono
  · rw [if_neg htier]
    exact hmono

/-! ## Cached constants (`src/fmprb/const_e.c`, `DEF_CACHED_CONSTANT`)

`const_e.c` instantiates `DEF_CACHED_CONSTANT(fmprb_const_e,
fmprb_const_e_eval)`; the macro body is not part of the repository snapshot
and is modelled from the spec's cached-constant protocol (§4.3).  The
evaluation function (a series summation) is an external collaborator and is
a parameter of the model. -/

/-- A process-wide cached constant entry: the precision it is valid for and
the stored ball.  `cachedPrec = 0` is the initial empty state. -/
structure CachedConstant where
  cachedPrec : ℕ
  value : Fmprb
  deriving Repr, DecidableEq

/-- Modelled from the spec: the cached-constant protocol of
`DEF_CACHED_CONSTANT`.  If the cached entry is valid for at least the
requested precision, return the stored ball unchanged; otherwise recompute
at the requested precision plus a guard margin, replace the entry as a
whole, and return the new ball. -/
def getCachedConstant (evalf : ℕ → Fmprb) (guard : ℕ) (c : CachedConstant)
    (prec : ℕ) : Fmprb × CachedConstant :=
  if prec ≤ c.cachedPrec then (c.value, c)
  else
    let v := evalf (prec + guard)
    (v, ⟨prec + guard, v⟩)

theorem getCachedConstant_hit {evalf : ℕ → Fmprb} {guard : ℕ}
    {c : CachedConstant} {prec : ℕ} (h : prec ≤ c.cachedPrec) :
    getCachedConstant evalf guard c prec = (c.value, c) := by
  unfold getCachedConstant
  rw [if_pos h]

theorem getCachedConstant_miss {evalf : ℕ → Fmprb} {guard : ℕ}
    {c : CachedConstant} {prec : ℕ} (h : c.cachedPrec < prec) :
    getCachedConstant evalf guard c prec =
      (evalf (prec + guard), ⟨prec + guard, evalf (prec + guard)⟩) := by
  unfold getCachedConstant
  rw [if_neg (by omega)]

/-- A second request at lower-or-equal precision after any request returns
the very same ball. -/
theorem getCachedConstant_second_eq (evalf : ℕ → Fmprb) (guard : ℕ)
    (c : CachedConstant) {p1 p2 : ℕ} (h : p2 ≤ p1) :
    (getCachedConstant evalf guard
      ((getCachedConstant evalf guard c p1).2) p2).1 =
    (getCachedConstant evalf guard c p1).1 := by
  by_cases h1 : p1 ≤ c.cachedPrec
  · rw [getCachedConstant_hit h1]
    rw [show ((c.value, c) : Fmprb × CachedConstant).2 = c from rfl]
    rw [getCachedConstant_hit (le_trans h h1)]
  · rw [getCachedConstant_miss (show c.cachedPrec < p1 from by omega)]
    rw [show ((evalf (p1 + guard),
        (⟨p1 + guard, evalf (p1 + guard)⟩ : CachedConstant)) :
        Fmprb × CachedConstant).2
        = (⟨p1 + guard, evalf (p1 + guard)⟩ : CachedConstant) from rfl]
    rw [getCachedConstant_hit
      (show p2 ≤ (⟨p1 + guard, evalf (p1 + guard)⟩ : CachedConstant).cachedPrec
       from by simp only; omega)]

/-! ## Polynomial layer

Coefficient lists are little-endian (index 0 = constant term), matching the
`fmprb_struct *` arrays of `evaluate_vec_fast.c`.  The ball-polynomial
helpers called there (`_fmprb_poly_rem`, `_fmprb_poly_evaluate`, the tree
builder and `_fmprb_poly_mul` inside it) are not part of the snapshot and
are modelled from the spec; `_fmprb_poly_rem_2` and the evaluator dispatch
are embedded from the source. -/

/-- Exact evaluation of a rational coefficient list at a point. -/
def evalQ (x : ℚ) : List ℚ → ℚ
  | [] => 0
  | c :: cs => c + x * evalQ x cs

/-- Exact coefficient-wise polynomial sum (tail of the longer list kept). -/
def addPolyQ : List ℚ → List ℚ → List ℚ
  | [], v => v
  | u, [] => u
  | a :: u, b :: v => (a + b) :: addPolyQ u v

/-- Exact polynomial product (classical convolution). -/
def mulPolyQ : List ℚ → List ℚ → List ℚ
  | [], _ => []
  | a :: u, v => addPolyQ (v.map (fun c => a * c)) ((0 : ℚ) :: mulPolyQ u v)

/-- Modelled from the spec: ball-polynomial addition (coefficient-wise
`fmprb_add`, tail of the longer operand copied). -/
def fmprb_poly_add (prec : ℕ) : List Fmprb → List Fmprb → List Fmprb
  | [], v => v
  | u, [] => u
  | a :: u, b :: v => fmprb_add a b prec :: fmprb_poly_add prec u v

/-- Modelled from the spec: ball-polynomial multiplication (classical
convolution over the Ball Arithmetic Layer). -/
def fmprb_poly_mul (prec : ℕ) : List Fmprb → List Fmprb → List Fmprb
  | [], _ => []
  | a :: u, v => fmprb_poly_add prec (v.map (fun c => fmprb_mul a c prec))
      (fmprb_zero :: fmprb_poly_mul prec u v)

/-- Modelled from the spec: `_fmprb_poly_evaluate` — Horner evaluation by
repeated multiply-add, starting from the leading coefficient (a length-1
polynomial is returned as its constant term, with no arithmetic). -/
def fmprb_poly_evaluate (prec : ℕ) (x : Fmprb) : List Fmprb → Fmprb
  | [] => fmprb_zero
  | [c] => c
  | c :: c2 :: cs =>
      fmprb_add (fmprb_mul (fmprb_poly_evaluate prec x (c2 :: cs)) x prec) c prec

/-- Coefficient-wise enclosure of an exact polynomial by a ball polynomial. -/
def polyContains (cs : List ℚ) (ps : List Fmprb) : Prop :=
  List.Forall₂ fmprbContains cs ps

theorem polyContains_length {cs : List ℚ} {ps : List Fmprb}
    (h : polyContains cs ps) : cs.length = ps.length :=
  List.Forall₂.length_eq h

/-- Horner evaluation encloses the exact polynomial value at an enclosed
point. -/
theorem fmprb_poly_evaluate_contains (prec : ℕ) {v : ℚ} {x : Fmprb}
    {cs : List ℚ} {ps : List Fmprb} (hx : fmprbContains v x)
    (hcs : polyContains cs ps) :
    fmprbContains (evalQ v cs) (fmprb_poly_evaluate prec x ps) := by
  induction hcs with
  | nil =>
      unfold evalQ fmprb_poly_evaluate
      exact fmprb_zero_contains
  | @cons c p cs' ps' hcp htail ih =>
      cases htail with
      | nil =>
          unfold evalQ fmprb_poly_evaluate evalQ
          have h1 : c + v * 0 = c := by ring
          rw [h1]
          exact hcp
      | @cons c2 p2 cs2 ps2 hcp2 htail2 =>
          show fmprbContains (evalQ v (c :: c2 :: cs2))
            (fmprb_poly_evaluate prec x (p :: p2 :: ps2))
          unfold evalQ fmprb_poly_evaluate
          have h1 : c + v * evalQ v (c2 :: cs2) = evalQ v (c2 :: cs2) * v + c := by
            ring
          rw [h1]
          exact fmprb_add_contains prec (fmprb_mul_contains prec ih hx) hcp

theorem evalQ_addPolyQ (x : ℚ) (u v : List ℚ) :
    evalQ x (addPolyQ u v) = evalQ x u + evalQ x v := by
  induction u generalizing v with
  | nil =>
      unfold addPolyQ evalQ
      simp
  | cons a u ih =>
      cases v with
      | nil =>
          unfold addPolyQ evalQ
          simp [evalQ]
      | cons b v =>
          unfold addPolyQ evalQ
          rw [ih]
          ring

theorem evalQ_map_mul (x q : ℚ) (v : List ℚ) :
    evalQ x (v.map (fun c => q * c)) = q * evalQ x v := by
  induction v with
  | nil => simp [evalQ]
  | cons b v ih =>
      simp only [List.map_cons]
      unfold evalQ
      rw [ih]
      ring

theorem evalQ_mulPolyQ (x : ℚ) (u v : List ℚ) :
    evalQ x (mulPolyQ u v) = evalQ x u * evalQ x v := by
  induction u with
  | nil => simp [mulPolyQ, evalQ]
  | cons a u ih =>
      show evalQ x (addPolyQ (v.map (fun c => a * c)) ((0 : ℚ) :: mulPolyQ u v))
        = evalQ x (a :: u) * evalQ x v
      rw [evalQ_addPolyQ, evalQ_map_mul]
      have h1 : evalQ x ((0 : ℚ) :: mulPolyQ u v) = 0 + x * evalQ x (mulPolyQ u v) := rfl
      have h2 : evalQ x (a :: u) = a + x * evalQ x u := rfl
      rw [h1, ih, h2]
      ring

theorem addPolyQ_length (u v : List ℚ) :
    (addPolyQ u v).length = max u.length v.length := by
  induction u generalizing v with
  | nil => simp [addPolyQ]
  | cons a u ih =>
      cases v with
      | nil => simp [addPolyQ]
      | cons b v =>
          show ((a + b) :: addPolyQ u v).length = max (a :: u).length (b :: v).length
          simp only [List.length_cons]
          rw [ih]
          omega

theorem mulPolyQ_length {u v : List ℚ} (hu : u ≠ []) (hv : v ≠ []) :
    (mulPolyQ u v).length = u.length + v.length - 1 := by
  have hv1 : 1 ≤ v.length := by
    cases v with
    | nil => exact absurd rfl hv
    | cons b w => simp
  induction u with
  | nil => exact absurd rfl hu
  | cons a u ih =>
      show (addPolyQ (v.map (fun c => a * c)) ((0 : ℚ) :: mulPolyQ u v)).length
        = (a :: u).length + v.length - 1
      rw [addPolyQ_length]
      simp only [List.length_map, List.length_cons]
      cases u with
      | nil =>
          show max v.length ((mulPolyQ ([] : List ℚ) v).length + 1) = 1 + v.length - 1
          simp [mulPolyQ]
          omega
      | cons a2 u2 =>
          rw [ih (by simp)]
          simp only [List.length_cons]
          omega

theorem getLastD_cons_of_ne {α : Type} (a d : α) {l : List α} (h : l ≠ []) :
    (a :: l).getLastD d = l.getLastD d := by
  cases l with
  | nil => exact absurd rfl h
  | cons b m => simp [List.getLastD]

theorem getLastD_map_mul (q d : ℚ) : ∀ {v : List ℚ}, v ≠ [] →
    ((v.map (fun c => q * c)).getLastD d) = q * v.getLastD d
  | [], h => absurd rfl h
  | [b], _ => by simp [List.getLastD]
  | b :: b2 :: w2, _ => by
      show ((q * b :: (b2 :: w2).map (fun c => q * c)).getLastD d)
        = q * (b :: b2 :: w2).getLastD d
      rw [getLastD_cons_of_ne (q * b) d
        (by simp : ((b2 :: w2).map (fun c => q * c)) ≠ [])]
      rw [getLastD_map_mul q d (show (b2 :: w2) ≠ [] by simp)]
      rw [getLastD_cons_of_ne b d (by simp : (b2 :: w2) ≠ [])]

theorem getLastD_addPolyQ_right (d : ℚ) : ∀ {u v : List ℚ}, u.length < v.length →
    (addPolyQ u v).getLastD d = v.getLastD d
  | [], v, _ => by simp [addPolyQ]
  | a :: u, [], h => by simp at h
  | a :: u, b :: v, h => by
      have hlt : u.length < v.length := by
        simp only [List.length_cons] at h
        omega
      have hvne : v ≠ [] := by
        intro hc
        subst hc
        simp at hlt
      show ((a + b) :: addPolyQ u v).getLastD d = (b :: v).getLastD d
      rw [getLastD_cons_of_ne _ _ (by
            intro hc
            have h2 := addPolyQ_length u v
            rw [hc] at h2
            simp at h2
            omega),
          getLastD_cons_of_ne _ _ hvne]
      exact getLastD_addPolyQ_right d hlt

theorem getLastD_mulPolyQ : ∀ {u v : List ℚ}, u ≠ [] → v ≠ [] →
    (mulPolyQ u v).getLastD 0 = u.getLastD 0 * v.getLastD 0
  | [], _, hu, _ => absurd rfl hu
  | [a], v, _, hv => by
      show (addPolyQ (v.map (fun c => a * c)) ((0 : ℚ) :: mulPolyQ [] v)).getLastD 0
        = [a].getLastD 0 * v.getLastD 0
      have hm : mulPolyQ ([] : List ℚ) v = [] := rfl
      rw [hm]
      cases v with
      | nil => exact absurd rfl hv
      | cons b w =>
          cases w with
          | nil =>
              show ((a * b + 0) :: addPolyQ [] []).getLastD 0
                = [a].getLastD 0 * [b].getLastD 0
              simp [addPolyQ, List.getLastD]
          | cons b2 w2 =>
              show ((a * b + 0) :: addPolyQ ((b2 :: w2).map (fun c => a * c)) []).getLastD 0
                = [a].getLastD 0 * (b :: b2 :: w2).getLastD 0
              have ha : addPolyQ ((b2 :: w2).map (fun c => a * c)) [] =
                  (b2 :: w2).map (fun c => a * c) := rfl
              rw [ha]
              rw [getLastD_cons_of_ne (a * b + 0) 0
                (by simp : ((b2 :: w2).map (fun c => a * c)) ≠ [])]
              rw [getLastD_map_mul a 0 (show (b2 :: w2) ≠ [] by simp)]
              rw [getLastD_cons_of_ne b 0 (by simp : (b2 :: w2) ≠ [])]
              simp [List.getLastD]
  | a :: a2 :: u2, v, _, hv => by
      have hv1 : 1 ≤ v.length := by
        cases v with
        | nil => exact absurd rfl hv
        | cons b w => simp
      show (addPolyQ (v.map (fun c => a * c))
          ((0 : ℚ) :: mulPolyQ (a2 :: u2) v)).getLastD 0
        = (a :: a2 :: u2).getLastD 0 * v.getLastD 0
      have hne : mulPolyQ (a2 :: u2) v ≠ [] := by
        intro hc
        have := mulPolyQ_length (show (a2 :: u2) ≠ [] by simp) hv
        rw [hc] at this
        simp only [List.length_nil, List.length_cons] at this
        omega
      rw [getLastD_addPolyQ_right 0 (by
            rw [List.length_map, List.length_cons,
              mulPolyQ_length (show (a2 :: u2) ≠ [] by simp) hv]
            simp only [List.length_cons]
            omega)]
      rw [getLastD_cons_of_ne (0 : ℚ) 0 hne]
      rw [getLastD_mulPolyQ (show (a2 :: u2) ≠ [] by simp) hv]
      rw [getLastD_cons_of_ne a 0 (by simp : (a2 :: u2) ≠ [])]

theorem forall₂_append_of {α β : Type} {R : α → β → Prop} :
    ∀ {u1 : List α} {u2 : List β} {v1 : List α} {v2 : List β},
    List.Forall₂ R u1 u2 → List.Forall₂ R v1 v2 →
    List.Forall₂ R (u1 ++ v1) (u2 ++ v2)
  | [], [], _, _, _, hv => by simpa using hv
  | a :: u1, b :: u2, v1, v2, hu, hv => by
      cases hu with
      | cons hab hu' =>
          simp only [List.cons_append]
          exact List.Forall₂.cons hab (forall₂_append_of hu' hv)

theorem forall₂_take_of {α β : Type} {R : α → β → Prop} (n : ℕ) :
    ∀ {u1 : List α} {u2 : List β}, List.Forall₂ R u1 u2 →
    List.Forall₂ R (u1.take n) (u2.take n) := by
  induction n with
  | zero =>
      intro u1 u2 _
      simp only [List.take_zero]
      exact List.Forall₂.nil
  | succ n ih =>
      intro u1 u2 h
      cases h with
      | nil => exact List.Forall₂.nil
      | cons hab h' =>
          simp only [List.take_succ_cons]
          exact List.Forall₂.cons hab (ih h')

theorem forall₂_drop_of {α β : Type} {R : α → β → Prop} (n : ℕ) :
    ∀ {u1 : List α} {u2 : List β}, List.Forall₂ R u1 u2 →
    List.Forall₂ R (u1.drop n) (u2.drop n) := by
  induction n with
  | zero =>
      intro u1 u2 h
      simpa using h
  | succ n ih =>
      intro u1 u2 h
      cases h with
      | nil => exact List.Forall₂.nil
      | cons hab h' =>
          simp only [List.drop_succ_cons]
          exact ih h'

theorem forall₂_dropLast_of {α β : Type} {R : α → β → Prop} :
    ∀ {u1 : List α} {u2 : List β}, List.Forall₂ R u1 u2 →
    List.Forall₂ R u1.dropLast u2.dropLast
  | [], [], _ => List.Forall₂.nil
  | [_], [_], _ => List.Forall₂.nil
  | _ :: _ :: _, _ :: _ :: _, h => by
      cases h with
      | cons hab h' =>
          cases h' with
          | cons hab2 h'' =>
              simp only [List.dropLast_cons₂]
              exact List.Forall₂.cons hab
                (forall₂_dropLast_of (List.Forall₂.cons hab2 h''))

theorem forall₂_getLastD_of {α β : Type} {R : α → β → Prop} {d1 : α} {d2 : β}
    (hd : R d1 d2) :
    ∀ {u1 : List α} {u2 : List β}, List.Forall₂ R u1 u2 →
    R (u1.getLastD d1) (u2.getLastD d2)
  | [], [], _ => hd
  | [a], [b], h => by
      cases h with
      | cons hab _ => simpa using hab
  | a :: a2 :: u1, b :: b2 :: u2, h => by
      cases h with
      | cons hab h' =>
          rw [getLastD_cons_of_ne a d1 (by simp), getLastD_cons_of_ne b d2 (by simp)]
          exact forall₂_getLastD_of hd h'

theorem forall₂_zipWith_of {α1 β1 α2 β2 α3 β3 : Type} {R : α1 → β1 → Prop}
    {S : α2 → β2 → Prop} {T : α3 → β3 → Prop} {f : α1 → α2 → α3}
    {g : β1 → β2 → β3}
    (hfg : ∀ a b a' b', R a b → S a' b' → T (f a a') (g b b'))
    {u1 : List α1} {u2 : List β1} (hu : List.Forall₂ R u1 u2) :
    ∀ {v1 : List α2} {v2 : List β2}, List.Forall₂ S v1 v2 →
    List.Forall₂ T (List.zipWith f u1 v1) (List.zipWith g u2 v2) := by
  induction hu with
  | nil =>
      intro v1 v2 _
      simp only [List.zipWith_nil_left]
      exact List.Forall₂.nil
  | cons hab hu' ih =>
      intro v1 v2 hv
      cases hv with
      | nil =>
          simp only [List.zipWith_nil_right]
          exact List.Forall₂.nil
      | cons hab2 hv' =>
          simp only [List.zipWith_cons_cons]
          exact List.Forall₂.cons (hfg _ _ _ _ hab hab2) (ih hv')

theorem forall₂_replicate_of {α β : Type} {R : α → β → Prop} {a : α} {b : β}
    (h : R a b) (n : ℕ) :
    List.Forall₂ R (List.replicate n a) (List.replicate n b) := by
  induction n with
  | zero => exact List.Forall₂.nil
  | succ n ih =>
      simp only [List.replicate_succ]
      exact List.Forall₂.cons h ih

theorem addPolyQ_nil_right (u : List ℚ) : addPolyQ u [] = u := by
  cases u <;> rfl

theorem fmprb_poly_add_nil_right (prec : ℕ) (u : List Fmprb) :
    fmprb_poly_add prec u [] = u := by
  cases u <;> rfl

/-- Ball polynomial addition encloses exact polynomial addition. -/
theorem fmprb_poly_add_contains (prec : ℕ) {u : List ℚ} {U : List Fmprb}
    (hu : polyContains u U) :
    ∀ {v : List ℚ} {V : List Fmprb}, polyContains v V →
    polyContains (addPolyQ u v) (fmprb_poly_add prec U V) := by
  unfold polyContains at *
  induction hu with
  | nil =>
      intro v V hv
      cases hv with
      | nil => exact List.Forall₂.nil
      | cons hab2 hv' => exact List.Forall₂.cons hab2 hv'
  | cons hab hu' ih =>
      intro v V hv
      cases hv with
      | nil =>
          rw [addPolyQ_nil_right, fmprb_poly_add_nil_right]
          exact List.Forall₂.cons hab hu'
      | cons hab2 hv' =>
          exact List.Forall₂.cons (fmprb_add_contains prec hab hab2) (ih hv')

theorem forall₂_map_mul_contains (prec : ℕ) {a : ℚ} {A : Fmprb}
    (hab : fmprbContains a A) {v : List ℚ} {V : List Fmprb}
    (hv : List.Forall₂ fmprbContains v V) :
    List.Forall₂ fmprbContains (v.map (fun c => a * c))
      (V.map (fun c => fmprb_mul A c prec)) := by
  induction hv with
  | nil => exact List.Forall₂.nil
  | cons hcd htail ih =>
      simp only [List.map_cons]
      exact List.Forall₂.cons (fmprb_mul_contains prec hab hcd) ih

/-- Ball polynomial multiplication encloses exact polynomial
multiplication. -/
theorem fmprb_poly_mul_contains (prec : ℕ) {u : List ℚ} {U : List Fmprb}
    (hu : polyContains u U) :
    ∀ {v : List ℚ} {V : List Fmprb}, polyContains v V →
    polyContains (mulPolyQ u v) (fmprb_poly_mul prec U V) := by
  unfold polyContains at *
  induction hu with
  | nil =>
      intro v V _
      exact List.Forall₂.nil
  | cons hab hu' ih =>
      intro v V hv
      show List.Forall₂ fmprbContains
        (addPolyQ (v.map (fun c => _ * c)) ((0 : ℚ) :: mulPolyQ _ v))
        (fmprb_poly_add prec (V.map (fun c => fmprb_mul _ c prec))
          (fmprb_zero :: fmprb_poly_mul prec _ V))
      apply fmprb_poly_add_contains prec
      · exact forall₂_map_mul_contains prec hab hv
      · exact List.Forall₂.cons fmprb_zero_contains (ih hv)

/-- One long-division reduction step against a monic divisor (exact):
subtract `lead(a) · x^(deg a - deg b) · b` and drop the cancelled leading
coefficient. -/
def reducePolyQ (a b : List ℚ) : List ℚ :=
  a.dropLast.take (a.length - b.length) ++
    List.zipWith (fun ai bi => ai - a.getLastD 0 * bi)
      (a.dropLast.drop (a.length - b.length)) b.dropLast

/-- Modelled from the spec: one reduction step of the ball polynomial
remainder, using `fmprb_mul` and `fmprb_sub` at the working precision. -/
def fmprb_poly_reduce (prec : ℕ) (a b : List Fmprb) : List Fmprb :=
  a.dropLast.take (a.length - b.length) ++
    List.zipWith (fun ai bi =>
        fmprb_sub ai (fmprb_mul (a.getLastD fmprb_zero) bi prec) prec)
      (a.dropLast.drop (a.length - b.length)) b.dropLast

theorem reducePolyQ_length {a b : List ℚ} (h1 : 1 ≤ b.length)
    (h2 : b.length ≤ a.length) :
    (reducePolyQ a b).length = a.length - 1 := by
  unfold reducePolyQ
  rw [List.length_append, List.length_take, List.length_zipWith,
    List.length_drop, List.length_dropLast, List.length_dropLast]
  omega

theorem fmprb_poly_reduce_length {a b : List Fmprb} (prec : ℕ)
    (h1 : 1 ≤ b.length) (h2 : b.length ≤ a.length) :
    (fmprb_poly_reduce prec a b).length = a.length - 1 := by
  unfold fmprb_poly_reduce
  rw [List.length_append, List.length_take, List.length_zipWith,
    List.length_drop, List.length_dropLast, List.length_dropLast]
  omega

/-- Exact polynomial remainder by repeated reduction (the divisor is used
as if monic; callers only pass monic divisors). -/
def polyRemQ (a b : List ℚ) : List ℚ :=
  if _h1 : b.length = 0 then a
  else if _h2 : a.length < b.length then a
  else polyRemQ (reducePolyQ a b) b
termination_by a.length
decreasing_by
  rw [reducePolyQ_length (by omega) (by omega)]
  omega

/-- Modelled from the spec: `_fmprb_poly_rem` — ball polynomial remainder
against a monic divisor by repeated reduction steps over the Ball
Arithmetic Layer. -/
def fmprb_poly_rem (prec : ℕ) (a b : List Fmprb) : List Fmprb :=
  if _h1 : b.length = 0 then a
  else if _h2 : a.length < b.length then a
  else fmprb_poly_rem prec (fmprb_poly_reduce prec a b) b
termination_by a.length
decreasing_by
  rw [fmprb_poly_reduce_length prec (by omega) (by omega)]
  omega

/-- The ball reduction step encloses the exact reduction step. -/
theorem fmprb_poly_reduce_contains (prec : ℕ) {aQ bQ : List ℚ}
    {aB bB : List Fmprb} (ha : polyContains aQ aB) (hb : polyContains bQ bB) :
    polyContains (reducePolyQ aQ bQ) (fmprb_poly_reduce prec aB bB) := by
  unfold reducePolyQ fmprb_poly_reduce
  have hla : aQ.length = aB.length := polyContains_length ha
  have hlb : bQ.length = bB.length := polyContains_length hb
  rw [hla, hlb]
  apply forall₂_append_of
  · exact forall₂_take_of _ (forall₂_dropLast_of ha)
  · apply forall₂_zipWith_of
    · intro ai Ai bi Bi hai hbi
      exact fmprb_sub_contains prec hai
        (fmprb_mul_contains prec (forall₂_getLastD_of fmprb_zero_contains ha) hbi)
    · exact forall₂_drop_of _ (forall₂_dropLast_of ha)
    · exact forall₂_dropLast_of hb

/-- The ball polynomial remainder encloses the exact polynomial
remainder. -/
theorem fmprb_poly_rem_contains (prec : ℕ) :
    ∀ (n : ℕ) {aQ bQ : List ℚ} {aB bB : List Fmprb}, aQ.length ≤ n →
    polyContains aQ aB → polyContains bQ bB →
    polyContains (polyRemQ aQ bQ) (fmprb_poly_rem prec aB bB) := by
  intro n
  induction n with
  | zero =>
      intro aQ bQ aB bB hn ha hb
      unfold polyRemQ fmprb_poly_rem
      have hla : aQ.length = aB.length := polyContains_length ha
      have hlb : bQ.length = bB.length := polyContains_length hb
      by_cases h1 : bQ.length = 0
      · rw [dif_pos h1, dif_pos (show bB.length = 0 from by omega)]
        exact ha
      · rw [dif_neg h1, dif_pos (show aQ.length < bQ.length from by omega),
          dif_neg (show ¬ bB.length = 0 from by omega),
          dif_pos (show aB.length < bB.length from by omega)]
        exact ha
  | succ n ih =>
      intro aQ bQ aB bB hn ha hb
      unfold polyRemQ fmprb_poly_rem
      have hla : aQ.length = aB.length := polyContains_length ha
      have hlb : bQ.length = bB.length := polyContains_length hb
      by_cases h1 : bQ.length = 0
      · rw [dif_pos h1, dif_pos (show bB.length = 0 from by omega)]
        exact ha
      · rw [dif_neg h1, dif_neg (show ¬ bB.length = 0 from by omega)]
        by_cases h2 : aQ.length < bQ.length
        · rw [dif_pos h2, dif_pos (show aB.length < bB.length from by omega)]
          exact ha
        · rw [dif_neg h2, dif_neg (show ¬ aB.length < bB.length from by omega)]
          apply ih
          · rw [reducePolyQ_length (by omega) (by omega)]
            omega
          · exact fmprb_poly_reduce_contains prec ha hb
          · exact hb

theorem polyRemQ_length_lt_aux :
    ∀ (n : ℕ) {a b : List ℚ}, a.length ≤ n → 1 ≤ b.length →
    (polyRemQ a b).length < b.length := by
  intro n
  induction n with
  | zero =>
      intro a b hn h
      unfold polyRemQ
      rw [dif_neg (show ¬ b.length = 0 from by omega),
        dif_pos (show a.length < b.length from by omega)]
      omega
  | succ n ih =>
      intro a b hn h
      unfold polyRemQ
      rw [dif_neg (show ¬ b.length = 0 from by omega)]
      by_cases h2 : a.length < b.length
      · rw [dif_pos h2]
        exact h2
      · rw [dif_neg h2]
        apply ih
        · rw [reducePolyQ_length (by omega) (by omega)]
          omega
        · exact h

theorem polyRemQ_length_lt {a b : List ℚ} (h : 1 ≤ b.length) :
    (polyRemQ a b).length < b.length :=
  polyRemQ_length_lt_aux a.length le_rfl h

theorem evalQ_append (x : ℚ) (u v : List ℚ) :
    evalQ x (u ++ v) = evalQ x u + x ^ u.length * evalQ x v := by
  induction u with
  | nil => simp [evalQ]
  | cons a u ih =>
      have h1 : evalQ x ((a :: u) ++ v) = a + x * evalQ x (u ++ v) := rfl
      have h2 : evalQ x (a :: u) = a + x * evalQ x u := rfl
      rw [h1, ih, h2]
      simp only [List.length_cons]
      ring

theorem evalQ_zipWith_sub (x q : ℚ) :
    ∀ {u v : List ℚ}, u.length = v.length →
    evalQ x (List.zipWith (fun ai bi => ai - q * bi) u v)
      = evalQ x u - q * evalQ x v
  | [], [], _ => by simp [evalQ]
  | a :: u, b :: v, h => by
      simp only [List.zipWith_cons_cons]
      unfold evalQ
      rw [evalQ_zipWith_sub x q (by simpa using h)]
      ring
  | [], _ :: _, h => by simp at h
  | _ :: _, [], h => by simp at h

theorem evalQ_dropLast (x : ℚ) :
    ∀ {a : List ℚ}, a ≠ [] →
    evalQ x a = evalQ x a.dropLast + x ^ (a.length - 1) * a.getLastD 0
  | [], h => absurd rfl h
  | [c], _ => by simp [evalQ, List.getLastD]
  | c :: c2 :: cs, _ => by
      have ih := evalQ_dropLast x (show (c2 :: cs) ≠ [] by simp)
      simp only [List.dropLast_cons₂, List.length_cons]
      show evalQ x (c :: c2 :: cs)
        = evalQ x (c :: (c2 :: cs).dropLast) + x ^ (cs.length + 1 + 1 - 1)
          * (c :: c2 :: cs).getLastD 0
      rw [getLastD_cons_of_ne c 0 (by simp)]
      unfold evalQ
      rw [ih]
      simp only [List.length_cons, Nat.add_sub_cancel]
      ring

theorem evalQ_take_drop (x : ℚ) (k : ℕ) (u : List ℚ) (h : k ≤ u.length) :
    evalQ x u = evalQ x (u.take k) + x ^ k * evalQ x (u.drop k) := by
  conv_lhs => rw [← List.take_append_drop k u]
  rw [evalQ_append, List.length_take, min_eq_left h]

/-- Evaluation of one reduction step: the value drops by the subtracted
multiple of the divisor (which is zero at any root of a monic divisor). -/
theorem reducePolyQ_eval {a b : List ℚ} (x : ℚ) (h1 : 1 ≤ b.length)
    (h2 : b.length ≤ a.length) (hmonic : b.getLastD 0 = 1) :
    evalQ x (reducePolyQ a b)
      = evalQ x a - a.getLastD 0 * x ^ (a.length - b.length) * evalQ x b := by
  unfold reducePolyQ
  have hane : a ≠ [] := by
    intro hc
    subst hc
    simp only [List.length_nil] at h2
    omega
  have hbne : b ≠ [] := by
    intro hc
    subst hc
    simp at h1
  have hlen1 : a.dropLast.length = a.length - 1 := List.length_dropLast a
  have hlen2 : b.dropLast.length = b.length - 1 := List.length_dropLast b
  have hk : a.length - b.length ≤ a.dropLast.length := by omega
  rw [evalQ_append]
  rw [evalQ_zipWith_sub x (a.getLastD 0) (by
    rw [List.length_drop]
    omega)]
  rw [List.length_take]
  have hmin : min (a.length - b.length) a.dropLast.length = a.length - b.length := by
    omega
  rw [hmin]
  have hsplit := evalQ_take_drop x (a.length - b.length) a.dropLast hk
  have hA := evalQ_dropLast x hane
  have hB := evalQ_dropLast x hbne
  rw [hmonic] at hB
  have hpow : x ^ (a.length - b.length) * x ^ (b.length - 1) = x ^ (a.length - 1) := by
    rw [← pow_add]
    congr 1
    omega
  have hBv : evalQ x b.dropLast = evalQ x b - x ^ (b.length - 1) := by
    rw [hB]
    ring
  have hDrop : evalQ x (a.dropLast.drop (a.length - b.length))
      = (evalQ x a.dropLast - evalQ x (a.dropLast.take (a.length - b.length)))
        / x ^ (a.length - b.length) ∨ True := Or.inr trivial
  -- direct algebraic assembly
  have hAd : evalQ x a.dropLast = evalQ x a - x ^ (a.length - 1) * a.getLastD 0 := by
    rw [hA]
    ring
  calc evalQ x (a.dropLast.take (a.length - b.length))
        + x ^ (a.length - b.length) *
          (evalQ x (a.dropLast.drop (a.length - b.length))
            - a.getLastD 0 * evalQ x b.dropLast)
      = (evalQ x (a.dropLast.take (a.length - b.length))
          + x ^ (a.length - b.length) * evalQ x (a.dropLast.drop (a.length - b.length)))
        - x ^ (a.length - b.length) * a.getLastD 0 * evalQ x b.dropLast := by
        ring
  _ = evalQ x a.dropLast
        - x ^ (a.length - b.length) * a.getLastD 0 * evalQ x b.dropLast := by
        rw [← hsplit]
  _ = (evalQ x a - x ^ (a.length - 1) * a.getLastD 0)
        - x ^ (a.length - b.length) * a.getLastD 0 *
          (evalQ x b - x ^ (b.length - 1)) := by
        rw [← hAd, ← hBv]
  _ = evalQ x a - a.getLastD 0 * x ^ (a.length - b.length) * evalQ x b
        - x ^ (a.length - 1) * a.getLastD 0
        + x ^ (a.length - b.length) * x ^ (b.length - 1) * a.getLastD 0 := by
        ring
  _ = evalQ x a - a.getLastD 0 * x ^ (a.length - b.length) * evalQ x b := by
        rw [hpow]
        ring

/-- The exact remainder preserves evaluation at every root of a monic
divisor. -/
theorem polyRemQ_eval_of_root_aux :
    ∀ (n : ℕ) {a b : List ℚ} {x : ℚ}, a.length ≤ n →
    b.getLastD 0 = 1 → evalQ x b = 0 →
    evalQ x (polyRemQ a b) = evalQ x a := by
  intro n
  induction n with
  | zero =>
      intro a b x hn hmonic hroot
      unfold polyRemQ
      by_cases h1 : b.length = 0
      · rw [dif_pos h1]
      · rw [dif_neg h1, dif_pos (show a.length < b.length from by omega)]
  | succ n ih =>
      intro a b x hn hmonic hroot
      unfold polyRemQ
      by_cases h1 : b.length = 0
      · rw [dif_pos h1]
      · rw [dif_neg h1]
        by_cases h2 : a.length < b.length
        · rw [dif_pos h2]
        · rw [dif_neg h2]
          rw [ih (by
              rw [reducePolyQ_length (by omega) (by omega)]
              omega) hmonic hroot]
          rw [reducePolyQ_eval x (by omega) (by omega) hmonic, hroot]
          ring

theorem polyRemQ_eval_of_root {a b : List ℚ} {x : ℚ}
    (hmonic : b.getLastD 0 = 1) (hroot : evalQ x b = 0) :
    evalQ x (polyRemQ a b) = evalQ x a :=
  polyRemQ_eval_of_root_aux a.length le_rfl hmonic hroot

/-- `_fmprb_poly_rem_2` (`src/fmprb_poly/evaluate_vec_fast.c`): for a
length-2 dividend the remainder is the closed form `r0 = a0 - a1*b0`
computed with one `fmprb_mul` and one `fmprb_sub`; otherwise fall through
to the general `_fmprb_poly_rem`. -/
def fmprb_poly_rem_2 (prec : ℕ) (a b : List Fmprb) : List Fmprb :=
  if a.length = 2 then
    [fmprb_sub (a.getD 0 fmprb_zero)
      (fmprb_mul (a.getD 1 fmprb_zero) (b.getD 0 fmprb_zero) prec) prec]
  else fmprb_poly_rem prec a b

/-- Exact counterpart of `_fmprb_poly_rem_2`. -/
def polyRem2Q (a b : List ℚ) : List ℚ :=
  if a.length = 2 then [a.getD 0 0 - a.getD 1 0 * b.getD 0 0]
  else polyRemQ a b

/-- One sweep step: reduce a node's remainder modulo a child polynomial
(no-op when its degree is already smaller — realized in the source by the
initial-reduction height capping and the `left ≤ pow` copy branch). -/
def sweepReduce (prec : ℕ) (r b : List Fmprb) : List Fmprb :=
  if r.length < b.length then r else fmprb_poly_rem_2 prec r b

/-- Exact counterpart of `sweepReduce`. -/
def sweepReduceQ (r b : List ℚ) : List ℚ :=
  if r.length < b.length then r else polyRem2Q r b

/-- Modelled from the spec: the subproduct tree — a binary tree over the
evaluation points; each node holds the monic polynomial whose roots are the
points in its subtree (leaves hold `x - point`). -/
inductive PolyTree where
  | leaf (x : Fmprb) : PolyTree
  | node (l : PolyTree) (r : PolyTree) : PolyTree

/-- The ball polynomial stored at a tree node, built bottom-up with ball
arithmetic at precision `prec`: a leaf holds `[-x, 1]`, an inner node the
product of its children's polynomials. -/
def PolyTree.nodePoly (prec : ℕ) : PolyTree → List Fmprb
  | PolyTree.leaf x => [fmprb_neg x, fmprb_one]
  | PolyTree.node l r => fmprb_poly_mul prec (l.nodePoly prec) (r.nodePoly prec)

/-- Number of leaves (evaluation points) below a tree node. -/
def PolyTree.leafCount : PolyTree → ℕ
  | PolyTree.leaf _ => 1
  | PolyTree.node l r => l.leafCount + r.leafCount

/-- Modelled from the spec: `_fmprb_poly_tree_build` — build the balanced
binary subproduct tree over the points. -/
def buildTree : List Fmprb → PolyTree
  | [] => PolyTree.leaf fmprb_zero
  | [x] => PolyTree.leaf x
  | x :: y :: rest =>
      PolyTree.node
        (buildTree ((x :: y :: rest).take ((x :: y :: rest).length / 2)))
        (buildTree ((x :: y :: rest).drop ((x :: y :: rest).length / 2)))
termination_by l => l.length
decreasing_by
  · simp only [List.length_take, List.length_cons]
    omega
  · simp only [List.length_drop, List.length_cons]
    omega

/-- The top-down remainder sweep: at an inner node reduce the current
remainder modulo each child's polynomial and recurse; at a leaf the
remainder is the (constant) evaluation. -/
def treeSweep (prec : ℕ) (r : List Fmprb) : PolyTree → List Fmprb
  | PolyTree.leaf _ => [r.headD fmprb_zero]
  | PolyTree.node l rt =>
      treeSweep prec (sweepReduce prec r (l.nodePoly prec)) l ++
      treeSweep prec (sweepReduce prec r (rt.nodePoly prec)) rt

/-- `_fmprb_poly_evaluate_vec_fast_precomp`
(`src/fmprb_poly/evaluate_vec_fast.c`): degenerate-case dispatch (`len < 2 ||
plen < 2`) followed by the general remainder sweep over the precomputed
tree. -/
def fmprb_poly_evaluate_vec_fast_precomp (poly : List Fmprb) (tree : PolyTree)
    (len : ℕ) (prec : ℕ) : List Fmprb :=
  if len < 2 ∨ poly.length < 2 then
    if len = 1 then
      [fmprb_poly_evaluate prec
        (fmprb_neg ((tree.nodePoly prec).headD fmprb_zero)) poly]
    else if len ≠ 0 ∧ poly.length = 0 then List.replicate len fmprb_zero
    else if len ≠ 0 ∧ poly.length = 1 then
      List.replicate len (poly.headD fmprb_zero)
    else []
  else
    treeSweep prec (sweepReduce prec poly (tree.nodePoly prec)) tree

/-- `_fmprb_poly_evaluate_vec_fast`: build the subproduct tree over the
points and run the precomputed-tree evaluator. -/
def fmprb_poly_evaluate_vec_fast (poly : List Fmprb) (xs : List Fmprb)
    (prec : ℕ) : List Fmprb :=
  fmprb_poly_evaluate_vec_fast_precomp poly (buildTree xs) xs.length prec

theorem fmprb_neg_neg (a : Fmprb) : fmprb_neg (fmprb_neg a) = a := by
  unfold fmprb_neg fmprNegExact
  simp

theorem treeSweep_length (prec : ℕ) (r : List Fmprb) (t : PolyTree) :
    (treeSweep prec r t).length = t.leafCount := by
  induction t generalizing r with
  | leaf x => rfl
  | node l rt ihl ihr =>
      unfold treeSweep PolyTree.leafCount
      rw [List.length_append, ihl, ihr]

theorem buildTree_leafCount :
    ∀ (n : ℕ) (xs : List Fmprb), xs.length ≤ n → xs ≠ [] →
    (buildTree xs).leafCount = xs.length := by
  intro n
  induction n with
  | zero =>
      intro xs hn hne
      cases xs with
      | nil => exact absurd rfl hne
      | cons x r => simp at hn
  | succ n ih =>
      intro xs hn hne
      match xs with
      | [] => exact absurd rfl hne
      | [x] => simp [buildTree, PolyTree.leafCount]
      | x :: y :: rest =>
          rw [buildTree]
          unfold PolyTree.leafCount
          have hlen : (x :: y :: rest).length = rest.length + 2 := by simp
          have h1 : ((x :: y :: rest).take ((x :: y :: rest).length / 2)).length
              = (x :: y :: rest).length / 2 := by
            rw [List.length_take]
            omega
          have h2 : ((x :: y :: rest).drop ((x :: y :: rest).length / 2)).length
              = (x :: y :: rest).length - (x :: y :: rest).length / 2 := by
            rw [List.length_drop]
          rw [ih _ (by omega) (by
              intro hc
              have := congrArg List.length hc
              rw [h1] at this
              simp at this
              omega),
            ih _ (by omega) (by
              intro hc
              have := congrArg List.length hc
              rw [h2] at this
              simp at this
              omega)]
          rw [h1, h2]
          omega

theorem forall₂_getD_of {α β : Type} {R : α → β → Prop} {d1 : α} {d2 : β}
    (hd : R d1 d2) :
    ∀ (i : ℕ) {u1 : List α} {u2 : List β}, List.Forall₂ R u1 u2 →
    R (u1.getD i d1) (u2.getD i d2) := by
  intro i
  induction i with
  | zero =>
      intro u1 u2 h
      cases h with
      | nil => exact hd
      | cons hab _ => simpa using hab
  | succ i ih =>
      intro u1 u2 h
      cases h with
      | nil => exact hd
      | cons hab h' =>
          simp only [List.getD_cons_succ]
          exact ih h'

/-- Relation between a subproduct tree and the exact points it encloses. -/
inductive TreeOk : PolyTree → List ℚ → Prop where
  | leaf {x : Fmprb} {v : ℚ} (h : fmprbContains v x) :
      TreeOk (PolyTree.leaf x) [v]
  | node {l r : PolyTree} {vl vr : List ℚ} (hl : TreeOk l vl) (hr : TreeOk r vr) :
      TreeOk (PolyTree.node l r) (vl ++ vr)

theorem buildTree_ok :
    ∀ (n : ℕ) {xs : List Fmprb} {vs : List ℚ}, xs.length ≤ n → xs ≠ [] →
    List.Forall₂ fmprbContains vs xs → TreeOk (buildTree xs) vs := by
  intro n
  induction n with
  | zero =>
      intro xs vs hn hne _
      cases xs with
      | nil => exact absurd rfl hne
      | cons x r => simp at hn
  | succ n ih =>
      intro xs vs hn hne hv
      match xs, hv with
      | [], _ => exact absurd rfl hne
      | [x], List.Forall₂.cons hvx List.Forall₂.nil =>
          rw [show buildTree [x] = PolyTree.leaf x from by rw [buildTree]]
          exact TreeOk.leaf hvx
      | x :: y :: rest, hv =>
          rw [buildTree]
          have hsplit : vs = vs.take ((x :: y :: rest).length / 2)
              ++ vs.drop ((x :: y :: rest).length / 2) :=
            (List.take_append_drop _ vs).symm
          rw [hsplit]
          have hlenv : vs.length = (x :: y :: rest).length :=
            List.Forall₂.length_eq hv
          simp only [List.length_cons] at hn hlenv
          apply TreeOk.node
          · have hf := forall₂_take_of ((x :: y :: rest).length / 2) hv
            refine ih ?_ ?_ hf
            · rw [List.length_take]
              simp only [List.length_cons]
              omega
            · intro hc
              have hcl := congrArg List.length hc
              rw [List.length_take] at hcl
              simp only [List.length_cons, List.length_nil] at hcl
              omega
          · have hf := forall₂_drop_of ((x :: y :: rest).length / 2) hv
            refine ih ?_ ?_ hf
            · rw [List.length_drop]
              simp only [List.length_cons]
              omega
            · intro hc
              have hcl := congrArg List.length hc
              rw [List.length_drop] at hcl
              simp only [List.length_cons, List.length_nil] at hcl
              omega

/-- The ball polynomial stored at a tree node encloses an exact monic
polynomial vanishing at all the node's points. -/
theorem treeOk_nodePoly_spec (prec : ℕ) :
    ∀ {t : PolyTree} {vs : List ℚ}, TreeOk t vs →
    ∃ β : List ℚ, polyContains β (t.nodePoly prec) ∧ β.getLastD 0 = 1 ∧
      β.length = vs.length + 1 ∧ ∀ v ∈ vs, evalQ v β = 0 := by
  intro t vs h
  induction h with
  | @leaf x v hvx =>
      refine ⟨[-v, 1], ?_, by simp [List.getLastD], by simp, ?_⟩
      · unfold PolyTree.nodePoly polyContains
        exact List.Forall₂.cons (fmprb_neg_contains hvx)
          (List.Forall₂.cons fmprb_one_contains List.Forall₂.nil)
      · intro w hw
        simp only [List.mem_singleton] at hw
        subst hw
        unfold evalQ evalQ evalQ
        ring
  | @node l r vl vr hl hr ihl ihr =>
      obtain ⟨βl, hβl, hml, hlenl, hrootl⟩ := ihl
      obtain ⟨βr, hβr, hmr, hlenr, hrootr⟩ := ihr
      have hβlne : βl ≠ [] := by
        intro hc
        rw [hc] at hlenl
        simp at hlenl
      have hβrne : βr ≠ [] := by
        intro hc
        rw [hc] at hlenr
        simp at hlenr
      refine ⟨mulPolyQ βl βr, ?_, ?_, ?_, ?_⟩
      · exact fmprb_poly_mul_contains prec hβl hβr
      · rw [getLastD_mulPolyQ hβlne hβrne, hml, hmr]
        norm_num
      · rw [mulPolyQ_length hβlne hβrne, hlenl, hlenr]
        simp only [List.length_append]
        omega
      · intro w hw
        rw [evalQ_mulPolyQ]
        rcases List.mem_append.mp hw with hw | hw
        · rw [hrootl w hw]
          ring
        · rw [hrootr w hw]
          ring

/-- One sweep reduction step: enclosure, evaluation preservation at the
divisor's roots, and the degree bound. -/
theorem sweepReduce_spec (prec : ℕ) {ρ β : List ℚ} {r b : List Fmprb}
    (hρ : polyContains ρ r) (hβ : polyContains β b)
    (hmonic : β.getLastD 0 = 1) (hblen : 2 ≤ β.length) :
    polyContains (sweepReduceQ ρ β) (sweepReduce prec r b) ∧
    (∀ x : ℚ, evalQ x β = 0 → evalQ x (sweepReduceQ ρ β) = evalQ x ρ) ∧
    (sweepReduceQ ρ β).length ≤ β.length - 1 := by
  have hlρ : ρ.length = r.length := polyContains_length hρ
  have hlβ : β.length = b.length := polyContains_length hβ
  unfold sweepReduceQ sweepReduce
  by_cases h1 : ρ.length < β.length
  · rw [if_pos h1, if_pos (by omega)]
    exact ⟨hρ, fun x _ => rfl, by omega⟩
  · rw [if_neg h1, if_neg (by omega)]
    unfold polyRem2Q fmprb_poly_rem_2
    by_cases h2 : ρ.length = 2
    · rw [if_pos h2, if_pos (by omega)]
      have hβ2 : β.length = 2 := by omega
      refine ⟨?_, ?_, by
        simp only [List.length_singleton]
        omega⟩
      · exact List.Forall₂.cons
          (fmprb_sub_contains prec (forall₂_getD_of fmprb_zero_contains 0 hρ)
            (fmprb_mul_contains prec (forall₂_getD_of fmprb_zero_contains 1 hρ)
              (forall₂_getD_of fmprb_zero_contains 0 hβ)))
          List.Forall₂.nil
      · intro x hroot
        match ρ, h2, β, hβ2 with
        | [c0, c1], _, [d0, d1], _ =>
            have hd1 : d1 = 1 := by
              simpa [List.getLastD] using hmonic
            have hroot2 : d0 + x * d1 = 0 := by
              have e : evalQ x [d0, d1] = d0 + x * d1 := by
                show d0 + x * (d1 + x * 0) = d0 + x * d1
                ring
              rw [e] at hroot
              exact hroot
            have hd0 : d0 = -x := by
              rw [hd1] at hroot2
              linarith
            show evalQ x [[c0, c1].getD 0 0 - [c0, c1].getD 1 0 * [d0, d1].getD 0 0]
              = evalQ x [c0, c1]
            have e1 : evalQ x [[c0, c1].getD 0 0 -
                [c0, c1].getD 1 0 * [d0, d1].getD 0 0]
                = (c0 - c1 * d0) + x * 0 := rfl
            have e2 : evalQ x [c0, c1] = c0 + x * (c1 + x * 0) := rfl
            rw [e1, e2, hd0]
            ring
    · rw [if_neg h2, if_neg (by omega)]
      refine ⟨fmprb_poly_rem_contains prec ρ.length le_rfl hρ hβ, ?_, ?_⟩
      · intro x hroot
        exact polyRemQ_eval_of_root hmonic hroot
      · have := polyRemQ_length_lt (a := ρ) (b := β) (by omega)
        omega

theorem treeOk_length_pos {t : PolyTree} {vs : List ℚ} (h : TreeOk t vs) :
    1 ≤ vs.length := by
  induction h with
  | leaf _ => simp
  | node _ _ ihl ihr =>
      rw [List.length_append]
      omega

/-- The remainder sweep produces, leaf by leaf, balls enclosing the target
values: if the incoming remainder agrees with the target function on all the
node's points, every leaf ball encloses its point's target value. -/
theorem treeSweep_contains (prec : ℕ) (V : ℚ → ℚ) :
    ∀ {t : PolyTree} {vs : List ℚ}, TreeOk t vs →
    ∀ {ρ : List ℚ} {r : List Fmprb}, polyContains ρ r → ρ.length ≤ vs.length →
    (∀ x ∈ vs, evalQ x ρ = V x) →
    List.Forall₂ (fun ξ y => fmprbContains (V ξ) y) vs (treeSweep prec r t) := by
  intro t vs h
  induction h with
  | @leaf xb v hvx =>
      intro ρ r hρ hlen hval
      unfold treeSweep
      cases hρ with
      | nil =>
          have hv0 : V v = 0 := by
            have h1 := hval v (by simp)
            simpa [evalQ] using h1.symm
          refine List.Forall₂.cons ?_ List.Forall₂.nil
          rw [hv0]
          simpa using fmprb_zero_contains
      | @cons c C ρ2 r2 hc htail =>
          cases htail with
          | nil =>
              have hv : V v = c := by
                have h1 := hval v (by simp)
                have h2 : evalQ v [c] = c := by
                  show c + v * 0 = c
                  ring
                rw [h2] at h1
                exact h1.symm
              refine List.Forall₂.cons ?_ List.Forall₂.nil
              rw [hv]
              simpa using hc
          | cons _ _ => simp at hlen
  | @node l rt vl vr hl hr ihl ihr =>
      intro ρ r hρ hlen hval
      obtain ⟨βl, hβl, hml, hlenl, hrootl⟩ := treeOk_nodePoly_spec prec hl
      obtain ⟨βr, hβr, hmr, hlenr, hrootr⟩ := treeOk_nodePoly_spec prec hr
      have hposl : 1 ≤ vl.length := treeOk_length_pos hl
      have hposr : 1 ≤ vr.length := treeOk_length_pos hr
      have hsl := sweepReduce_spec prec hρ hβl hml (by omega)
      have hsr := sweepReduce_spec prec hρ hβr hmr (by omega)
      unfold treeSweep
      apply forall₂_append_of
      · apply ihl hsl.1
        · have := hsl.2.2
          omega
        · intro x hx
          rw [hsl.2.1 x (hrootl x hx)]
          exact hval x (List.mem_append.mpr (Or.inl hx))
      · apply ihr hsr.1
        · have := hsr.2.2
          omega
        · intro x hx
          rw [hsr.2.1 x (hrootr x hx)]
          exact hval x (List.mem_append.mpr (Or.inr hx))

theorem forall₂_replicate_right {R : ℚ → Fmprb → Prop} {b : Fmprb} :
    ∀ {vs : List ℚ}, (∀ ξ ∈ vs, R ξ b) →
    List.Forall₂ R vs (List.replicate vs.length b)
  | [], _ => List.Forall₂.nil
  | v :: vs, h => by
      simp only [List.length_cons, List.replicate_succ]
      exact List.Forall₂.cons (h v (by simp))
        (forall₂_replicate_right (fun ξ hξ => h ξ (by simp [hξ])))

/-- `evaluate_many` returns exactly as many balls as there are points. -/
theorem fmprb_poly_evaluate_vec_fast_length (poly xs : List Fmprb) (prec : ℕ) :
    (fmprb_poly_evaluate_vec_fast poly xs prec).length = xs.length := by
  unfold fmprb_poly_evaluate_vec_fast fmprb_poly_evaluate_vec_fast_precomp
  by_cases hdisp : xs.length < 2 ∨ poly.length < 2
  · rw [if_pos hdisp]
    by_cases h1 : xs.length = 1
    · rw [if_pos h1, h1]
      rfl
    · rw [if_neg h1]
      by_cases h2 : xs.length ≠ 0 ∧ poly.length = 0
      · rw [if_pos h2, List.length_replicate]
      · rw [if_neg h2]
        by_cases h3 : xs.length ≠ 0 ∧ poly.length = 1
        · rw [if_pos h3, List.length_replicate]
        · rw [if_neg h3]
          have hlen0 : xs.length = 0 := by
            by_contra hc
            rcases hdisp with hd | hd
            · omega
            · have hp : poly.length = 0 ∨ poly.length = 1 := by omega
              rcases hp with hp | hp
              · exact h2 ⟨hc, hp⟩
              · exact h3 ⟨hc, hp⟩
          simp [hlen0]
  · rw [if_neg hdisp]
    push_neg at hdisp
    rw [treeSweep_length]
    exact buildTree_leafCount xs.length xs le_rfl (by
      intro hc
      rw [hc] at hdisp
      simp at hdisp)

theorem horner_map_contains (prec : ℕ) {cs : List ℚ} {poly : List Fmprb}
    (hp : polyContains cs poly) :
    ∀ {vs : List ℚ} {xs : List Fmprb}, List.Forall₂ fmprbContains vs xs →
    List.Forall₂ (fun ξ y => fmprbContains (evalQ ξ cs) y) vs
      (xs.map (fun x => fmprb_poly_evaluate prec x poly)) := by
  intro vs xs h
  induction h with
  | nil => exact List.Forall₂.nil
  | cons hvx htail ih =>
      simp only [List.map_cons]
      exact List.Forall₂.cons (fmprb_poly_evaluate_contains prec hvx hp) ih

/-- Enclosure soundness of the fast multipoint evaluator: every returned
ball encloses the exact polynomial value at its point. -/
theorem fmprb_poly_evaluate_vec_fast_contains (prec : ℕ) {cs : List ℚ}
    {poly : List Fmprb} {vs : List ℚ} {xs : List Fmprb}
    (hp : polyContains cs poly) (hx : List.Forall₂ fmprbContains vs xs) :
    List.Forall₂ (fun ξ y => fmprbContains (evalQ ξ cs) y) vs
      (fmprb_poly_evaluate_vec_fast poly xs prec) := by
  unfold fmprb_poly_evaluate_vec_fast fmprb_poly_evaluate_vec_fast_precomp
  have hlenv : vs.length = xs.length := List.Forall₂.length_eq hx
  have hlenc : cs.length = poly.length := polyContains_length hp
  by_cases hdisp : xs.length < 2 ∨ poly.length < 2
  · rw [if_pos hdisp]
    by_cases h1 : xs.length = 1
    · rw [if_pos h1]
      match xs, h1, vs, hx with
      | [x], _, [v], List.Forall₂.cons hvx List.Forall₂.nil =>
          rw [show buildTree [x] = PolyTree.leaf x from by rw [buildTree]]
          show List.Forall₂ _ [v]
            [fmprb_poly_evaluate prec
              (fmprb_neg (([fmprb_neg x, fmprb_one].headD fmprb_zero))) poly]
          rw [show ([fmprb_neg x, fmprb_one].headD fmprb_zero) = fmprb_neg x
              from rfl]
          rw [fmprb_neg_neg]
          exact List.Forall₂.cons (fmprb_poly_evaluate_contains prec hvx hp)
            List.Forall₂.nil
    · rw [if_neg h1]
      by_cases h2 : xs.length ≠ 0 ∧ poly.length = 0
      · rw [if_pos h2]
        have hcs : cs = [] := by
          have := hlenc
          rw [h2.2] at this
          exact List.length_eq_zero.mp this
        subst hcs
        rw [show xs.length = vs.length from hlenv.symm]
        apply forall₂_replicate_right
        intro ξ _
        show fmprbContains (evalQ ξ []) fmprb_zero
        simpa [evalQ] using fmprb_zero_contains
      · rw [if_neg h2]
        by_cases h3 : xs.length ≠ 0 ∧ poly.length = 1
        · rw [if_pos h3]
          match poly, h3.2, cs, hp with
          | [c], _, [cq], List.Forall₂.cons hcq List.Forall₂.nil =>
              rw [show xs.length = vs.length from hlenv.symm]
              apply forall₂_replicate_right
              intro ξ _
              show fmprbContains (evalQ ξ [cq]) (([c].headD fmprb_zero))
              have he : evalQ ξ [cq] = cq := by
                show cq + ξ * 0 = cq
                ring
              rw [he]
              exact hcq
        · rw [if_neg h3]
          have hlen0 : xs.length = 0 := by
            by_contra hc
            rcases hdisp with hd | hd
            · omega
            · have hp' : poly.length = 0 ∨ poly.length = 1 := by omega
              rcases hp' with hp' | hp'
              · exact h2 ⟨hc, hp'⟩
              · exact h3 ⟨hc, hp'⟩
          have hxs : xs = [] := List.length_eq_zero.mp hlen0
          subst hxs
          cases hx
          exact List.Forall₂.nil
  · rw [if_neg hdisp]
    push_neg at hdisp
    have hxsne : xs ≠ [] := by
      intro hc
      rw [hc] at hdisp
      simp at hdisp
    have htree := buildTree_ok xs.length le_rfl hxsne hx
    obtain ⟨β, hβ, hm, hlenβ, hroot⟩ := treeOk_nodePoly_spec prec htree
    have hposv : 1 ≤ vs.length := by omega
    have hs := sweepReduce_spec prec hp hβ hm (by omega)
    apply treeSweep_contains prec (fun ξ => evalQ ξ cs) htree hs.1
    · have := hs.2.2
      omega
    · intro x hxmem
      exact hs.2.1 x (hroot x hxmem)

theorem evaluate_vec_fast_nil_points (poly : List Fmprb) (prec : ℕ) :
    fmprb_poly_evaluate_vec_fast poly [] prec = [] := by
  unfold fmprb_poly_evaluate_vec_fast fmprb_poly_evaluate_vec_fast_precomp
  rw [if_pos (by simp)]
  rw [if_neg (by simp), if_neg (by simp), if_neg (by simp)]

theorem evaluate_vec_fast_one_point (poly : List Fmprb) (x : Fmprb) (prec : ℕ) :
    fmprb_poly_evaluate_vec_fast poly [x] prec
      = [fmprb_poly_evaluate prec x poly] := by
  unfold fmprb_poly_evaluate_vec_fast fmprb_poly_evaluate_vec_fast_precomp
  rw [if_pos (by simp)]
  rw [if_pos (by simp)]
  rw [show buildTree [x] = PolyTree.leaf x from by rw [buildTree]]
  rw [show ((PolyTree.leaf x).nodePoly prec).headD fmprb_zero = fmprb_neg x
      from rfl]
  rw [fmprb_neg_neg]

theorem evaluate_vec_fast_zero_poly (xs : List Fmprb) (prec : ℕ) :
    fmprb_poly_evaluate_vec_fast [] xs prec
      = List.replicate xs.length fmprb_zero := by
  unfold fmprb_poly_evaluate_vec_fast fmprb_poly_evaluate_vec_fast_precomp
  rw [if_pos (by simp)]
  match xs with
  | [] =>
      rw [if_neg (by simp), if_neg (by simp), if_neg (by simp)]
      rfl
  | [x] =>
      rw [if_pos (show ([x] : List Fmprb).length = 1 by rfl)]
      rw [show buildTree [x] = PolyTree.leaf x from by rw [buildTree]]
      rfl
  | x :: y :: rest =>
      rw [if_neg (by simp), if_pos (by simp)]

theorem evaluate_vec_fast_const_poly (c : Fmprb) (xs : List Fmprb) (prec : ℕ) :
    fmprb_poly_evaluate_vec_fast [c] xs prec = List.replicate xs.length c := by
  unfold fmprb_poly_evaluate_vec_fast fmprb_poly_evaluate_vec_fast_precomp
  rw [if_pos (by simp)]
  match xs with
  | [] =>
      rw [if_neg (by simp), if_neg (by simp), if_neg (by simp)]
      rfl
  | [x] =>
      rw [if_pos (show ([x] : List Fmprb).length = 1 by rfl)]
      rw [show buildTree [x] = PolyTree.leaf x from by rw [buildTree]]
      rfl
  | x :: y :: rest =>
      rw [if_neg (by simp), if_neg (by simp), if_pos (by simp)]
      rfl

/-- The `_fmprb_poly_rem_2` shortcut agrees with the general remainder on a
length-2 dividend and a monic length-2 divisor. -/
theorem fmprb_poly_rem_2_eq_rem (prec : ℕ) (a0 a1 b0 : Fmprb) :
    fmprb_poly_rem_2 prec [a0, a1] [b0, fmprb_one]
      = fmprb_poly_rem prec [a0, a1] [b0, fmprb_one] := by
  have h1 : fmprb_poly_rem_2 prec [a0, a1] [b0, fmprb_one]
      = [fmprb_sub a0 (fmprb_mul a1 b0 prec) prec] := by
    unfold fmprb_poly_rem_2
    rw [if_pos (show ([a0, a1] : List Fmprb).length = 2 by rfl)]
    rfl
  have h2 : fmprb_poly_rem prec [a0, a1] [b0, fmprb_one]
      = [fmprb_sub a0 (fmprb_mul a1 b0 prec) prec] := by
    rw [fmprb_poly_rem]
    rw [dif_neg (by simp), dif_neg (by simp)]
    rw [show fmprb_poly_reduce prec [a0, a1] [b0, fmprb_one]
        = [fmprb_sub a0 (fmprb_mul a1 b0 prec) prec] from rfl]
    rw [fmprb_poly_rem]
    rw [dif_neg (by simp), dif_pos (by simp)]
  rw [h1, h2]

/-- `_fmprb_poly_rem_2` encloses its exact counterpart. -/
theorem fmprb_poly_rem_2_contains (prec : ℕ) {ρ β : List ℚ} {r b : List Fmprb}
    (hρ : polyContains ρ r) (hβ : polyContains β b) :
    polyContains (polyRem2Q ρ β) (fmprb_poly_rem_2 prec r b) := by
  have hlρ : ρ.length = r.length := polyContains_length hρ
  unfold polyRem2Q fmprb_poly_rem_2
  by_cases h2 : ρ.length = 2
  · rw [if_pos h2, if_pos (by omega)]
    exact List.Forall₂.cons
      (fmprb_sub_contains prec (forall₂_getD_of fmprb_zero_contains 0 hρ)
        (fmprb_mul_contains prec (forall₂_getD_of fmprb_zero_contains 1 hρ)
          (forall₂_getD_of fmprb_zero_contains 0 hβ)))
      List.Forall₂.nil
  · rw [if_neg h2, if_neg (by omega)]
    exact fmprb_poly_rem_contains prec ρ.length le_rfl hρ hβ

/-! ## Claim theorems -/

/-- C1: every operation of the Ball Arithmetic Layer (multiplication,
addition, subtraction, negation) and of the evaluator built on it (Horner
evaluation, the `_fmprb_poly_rem_2` reduction) produces a ball `(m, r)`
that rigorously encloses the mathematically exact result — the true value
lies within `[m - r, m + r]` even under internal rounding of the midpoint —
and radius arithmetic rounds away from zero (upward), never below the exact
value. -/
theorem claim_C1_ball_enclosure :
    (∀ (prec : ℕ) (x y : ℚ) (a b : Fmprb), fmprbContains x a →
      fmprbContains y b → fmprbContains (x * y) (fmprb_mul a b prec)) ∧
    (∀ (prec : ℕ) (x y : ℚ) (a b : Fmprb), fmprbContains x a →
      fmprbContains y b → fmprbContains (x + y) (fmprb_add a b prec)) ∧
    (∀ (prec : ℕ) (x y : ℚ) (a b : Fmprb), fmprbContains x a →
      fmprbContains y b → fmprbContains (x - y) (fmprb_sub a b prec)) ∧
    (∀ (x : ℚ) (a : Fmprb), fmprbContains x a →
      fmprbContains (-x) (fmprb_neg a)) ∧
    (∀ (prec : ℕ) (d : Fmpr), fmprVal d ≤ fmprVal (fmprRoundUp prec d)) ∧
    (∀ (prec : ℕ) (v : ℚ) (x : Fmprb) (cs : List ℚ) (ps : List Fmprb),
      fmprbContains v x → polyContains cs ps →
      fmprbContains (evalQ v cs) (fmprb_poly_evaluate prec x ps)) ∧
    (∀ (prec : ℕ) (ρ β : List ℚ) (r b : List Fmprb),
      polyContains ρ r → polyContains β b →
      polyContains (polyRem2Q ρ β) (fmprb_poly_rem_2 prec r b)) := by
  refine ⟨?_, ?_, ?_, ?_, ?_, ?_, ?_⟩
  · intro prec x y a b hx hy
    exact fmprb_mul_contains prec hx hy
  · intro prec x y a b hx hy
    exact fmprb_add_contains prec hx hy
  · intro prec x y a b hx hy
    exact fmprb_sub_contains prec hx hy
  · intro x a hx
    exact fmprb_neg_contains hx
  · intro prec d
    exact fmprRoundUp_ge prec d
  · intro prec v x cs ps hx hcs
    exact fmprb_poly_evaluate_contains prec hx hcs
  · intro prec ρ β r b hρ hβ
    exact fmprb_poly_rem_2_contains prec hρ hβ

theorem claim_C1_ball_enclosure_witness :
    fmprbContains 3 (⟨⟨3, 0⟩, ⟨0, 0⟩⟩ : Fmprb) ∧
    fmprbContains (3 * 3)
      (fmprb_mul ⟨⟨3, 0⟩, ⟨0, 0⟩⟩ ⟨⟨3, 0⟩, ⟨0, 0⟩⟩ 8) ∧
    fmprbContains (3 + 3)
      (fmprb_add ⟨⟨3, 0⟩, ⟨0, 0⟩⟩ ⟨⟨3, 0⟩, ⟨0, 0⟩⟩ 8) ∧
    fmprbContains (3 - 3)
      (fmprb_sub ⟨⟨3, 0⟩, ⟨0, 0⟩⟩ ⟨⟨3, 0⟩, ⟨0, 0⟩⟩ 8) ∧
    fmprbContains (-3) (fmprb_neg ⟨⟨3, 0⟩, ⟨0, 0⟩⟩) ∧
    fmprbContains (evalQ 3 [1]) (fmprb_poly_evaluate 8 ⟨⟨3, 0⟩, ⟨0, 0⟩⟩
      [fmprb_one]) ∧
    polyContains (polyRem2Q [1, 1] [1, 1])
      (fmprb_poly_rem_2 8 [fmprb_one, fmprb_one] [fmprb_one, fmprb_one]) := by
  have h3 : fmprbContains 3 (⟨⟨3, 0⟩, ⟨0, 0⟩⟩ : Fmprb) := by
    simp [fmprbContains, fmprVal]
  have h1 : fmprbContains 1 fmprb_one := by
    simp [fmprbContains, fmprb_one, fmprVal]
  have hpoly : polyContains [1] [fmprb_one] :=
    List.Forall₂.cons h1 List.Forall₂.nil
  have hpoly2 : polyContains [1, 1] [fmprb_one, fmprb_one] :=
    List.Forall₂.cons h1 (List.Forall₂.cons h1 List.Forall₂.nil)
  exact ⟨h3,
    claim_C1_ball_enclosure.1 8 3 3 _ _ h3 h3,
    claim_C1_ball_enclosure.2.1 8 3 3 _ _ h3 h3,
    claim_C1_ball_enclosure.2.2.1 8 3 3 _ _ h3 h3,
    claim_C1_ball_enclosure.2.2.2.1 3 _ h3,
    claim_C1_ball_enclosure.2.2.2.2.2.1 8 3 _ [1] _ h3 hpoly,
    claim_C1_ball_enclosure.2.2.2.2.2.2 8 [1, 1] [1, 1] _ _ hpoly2 hpoly2⟩

/-- C2: for every coefficient list, every list of evaluation points, and
every working precision, `evaluate_many`
(`fmprb_poly_evaluate_vec_fast`) returns exactly as many balls as points,
and each returned ball agrees within its radius with naive repeated Horner
evaluation: both enclose the same exact polynomial value. -/
theorem claim_C2_evaluator_equivalence (poly xs : List Fmprb) (prec : ℕ) :
    (fmprb_poly_evaluate_vec_fast poly xs prec).length = xs.length ∧
    (∀ (cs vs : List ℚ), polyContains cs poly →
      List.Forall₂ fmprbContains vs xs →
      List.Forall₂ (fun ξ y => fmprbContains (evalQ ξ cs) y) vs
        (fmprb_poly_evaluate_vec_fast poly xs prec) ∧
      List.Forall₂ (fun ξ y => fmprbContains (evalQ ξ cs) y) vs
        (xs.map (fun x => fmprb_poly_evaluate prec x poly))) := by
  refine ⟨fmprb_poly_evaluate_vec_fast_length poly xs prec, ?_⟩
  intro cs vs hp hx
  exact ⟨fmprb_poly_evaluate_vec_fast_contains prec hp hx,
    horner_map_contains prec hp hx⟩

theorem claim_C2_evaluator_equivalence_witness :
    polyContains [1, 1] [fmprb_one, fmprb_one] ∧
    List.Forall₂ fmprbContains [0, 1] [fmprb_zero, fmprb_one] ∧
    ((fmprb_poly_evaluate_vec_fast [fmprb_one, fmprb_one]
        [fmprb_zero, fmprb_one] 8).length = 2 ∧
     (List.Forall₂ (fun ξ y => fmprbContains (evalQ ξ [1, 1]) y) [0, 1]
        (fmprb_poly_evaluate_vec_fast [fmprb_one, fmprb_one]
          [fmprb_zero, fmprb_one] 8) ∧
      List.Forall₂ (fun ξ y => fmprbContains (evalQ ξ [1, 1]) y) [0, 1]
        ([fmprb_zero, fmprb_one].map
          (fun x => fmprb_poly_evaluate 8 x [fmprb_one, fmprb_one])))) := by
  have h1 : fmprbContains 1 fmprb_one := by
    simp [fmprbContains, fmprb_one, fmprVal]
  have h0 : fmprbContains 0 fmprb_zero := fmprb_zero_contains
  have hp : polyContains [1, 1] [fmprb_one, fmprb_one] :=
    List.Forall₂.cons h1 (List.Forall₂.cons h1 List.Forall₂.nil)
  have hx : List.Forall₂ fmprbContains [0, 1] [fmprb_zero, fmprb_one] :=
    List.Forall₂.cons h0 (List.Forall₂.cons h1 List.Forall₂.nil)
  exact ⟨hp, hx,
    (claim_C2_evaluator_equivalence [fmprb_one, fmprb_one]
      [fmprb_zero, fmprb_one] 8).1,
    (claim_C2_evaluator_equivalence [fmprb_one, fmprb_one]
      [fmprb_zero, fmprb_one] 8).2 [1, 1] [0, 1] hp hx⟩

/-- C3: for nonzero finite normalized operands and every precision, the
multiplication primitive `_fmpr_mul_mpn` under any rounding mode produces a
mantissa of exactly `prec` significant bits — fewer only when the exact
product is representable in fewer bits (and then the result is exact) — and
the exactness flag reports inexact if and only if the bits discarded by
rounding contained a nonzero bit. -/
theorem claim_C3_rounding_correctness (xman xn yman yn : ℕ) (xexp yexp : ℤ)
    (negative : Bool) (prec : ℕ) (rnd : FmprRnd)
    (hx : mpnNormalized xman xn) (hy : mpnNormalized yman yn) :
    (prec < nbits (xman * yman) →
      nbits (fmprMulMpn xman xn xexp yman yn yexp negative prec rnd).man
        = prec) ∧
    (nbits (xman * yman) ≤ prec →
      (fmprMulMpn xman xn xexp yman yn yexp negative prec rnd).man
        = xman * yman ∧
      (fmprMulMpn xman xn xexp yman yn yexp negative prec rnd).shift = 0 ∧
      (fmprMulMpn xman xn xexp yman yn yexp negative prec rnd).exact = true) ∧
    ((fmprMulMpn xman xn xexp yman yn yexp negative prec rnd).exact = true ↔
      (fmprMulMpn xman xn xexp yman yn yexp negative prec rnd).man *
        2 ^ (fmprMulMpn xman xn xexp yman yn yexp negative prec rnd).shift
        = xman * yman) ∧
    (nbits (fmprMulMpn xman xn xexp yman yn yexp negative prec rnd).man < prec →
      (fmprMulMpn xman xn xexp yman yn yexp negative prec rnd).exact = true ∧
      (fmprMulMpn xman xn xexp yman yn yexp negative prec rnd).man
        = xman * yman) := by
  have hxp : 1 ≤ xn := mpnNormalized_pos_len hx
  have hspec := fmprMulMpn_spec xexp yexp negative prec rnd hx.2 hy.2 (by omega)
  rw [hspec]
  simp only
  refine ⟨?_, ?_, ?_, ?_⟩
  · intro h
    exact magRound_size (magRndOf rnd negative) h
  · intro h
    rw [magRound_exact_of_small h]
    exact ⟨rfl, rfl, rfl⟩
  · exact magRound_exact_iff prec (magRndOf rnd negative) (xman * yman)
  · intro h
    rcases le_or_lt (nbits (xman * yman)) prec with hle | hlt
    · rw [magRound_exact_of_small hle]
      exact ⟨rfl, rfl⟩
    · rw [magRound_size (magRndOf rnd negative) hlt] at h
      omega

theorem claim_C3_rounding_correctness_witness :
    mpnNormalized (2 ^ 63) 1 ∧
    (let res := fmprMulMpn (2 ^ 63) 1 0 (2 ^ 63) 1 0 false 10 FmprRnd.down
     (10 < nbits (2 ^ 63 * 2 ^ 63) → nbits res.man = 10) ∧
     (nbits (2 ^ 63 * 2 ^ 63) ≤ 10 →
       res.man = 2 ^ 63 * 2 ^ 63 ∧ res.shift = 0 ∧ res.exact = true) ∧
     (res.exact = true ↔ res.man * 2 ^ res.shift = 2 ^ 63 * 2 ^ 63) ∧
     (nbits res.man < 10 → res.exact = true ∧ res.man = 2 ^ 63 * 2 ^ 63)) := by
  have hnorm : mpnNormalized (2 ^ 63) 1 := by decide
  exact ⟨hnorm,
    claim_C3_rounding_correctness (2 ^ 63) 1 (2 ^ 63) 1 0 0 false 10
      FmprRnd.down hnorm hnorm⟩

/-- C4: `get_cached_constant` returns the stored ball unchanged whenever the
cached entry's precision is at least the requested precision; otherwise it
recomputes at the requested precision plus a guard margin and replaces the
entry as a whole; consequently a call at `p2 ≤ p1` after a call at `p1`
returns a ball whose radius is at most the radius of the `p1` call. -/
theorem claim_C4_cached_constant :
    (∀ (evalf : ℕ → Fmprb) (guard : ℕ) (c : CachedConstant) (prec : ℕ),
      prec ≤ c.cachedPrec →
      getCachedConstant evalf guard c prec = (c.value, c)) ∧
    (∀ (evalf : ℕ → Fmprb) (guard : ℕ) (c : CachedConstant) (prec : ℕ),
      c.cachedPrec < prec →
      getCachedConstant evalf guard c prec
        = (evalf (prec + guard), ⟨prec + guard, evalf (prec + guard)⟩)) ∧
    (∀ (evalf : ℕ → Fmprb) (guard : ℕ) (c : CachedConstant) (p1 p2 : ℕ),
      p2 ≤ p1 →
      fmprVal ((getCachedConstant evalf guard
          ((getCachedConstant evalf guard c p1).2) p2).1).rad
        ≤ fmprVal ((getCachedConstant evalf guard c p1).1).rad) := by
  refine ⟨?_, ?_, ?_⟩
  · intro evalf guard c prec h
    exact getCachedConstant_hit h
  · intro evalf guard c prec h
    exact getCachedConstant_miss h
  · intro evalf guard c p1 p2 h
    rw [getCachedConstant_second_eq evalf guard c h]

theorem claim_C4_cached_constant_witness :
    ((7 : ℕ) ≤ (10 : ℕ)) ∧ ((3 : ℕ) ≤ (5 : ℕ)) ∧
    (getCachedConstant (fun _ => fmprb_one) 20 ⟨10, fmprb_one⟩ 7
      = (fmprb_one, ⟨10, fmprb_one⟩)) ∧
    fmprVal ((getCachedConstant (fun _ => fmprb_one) 20
        ((getCachedConstant (fun _ => fmprb_one) 20 ⟨0, fmprb_zero⟩ 5).2) 3).1).rad
      ≤ fmprVal ((getCachedConstant (fun _ => fmprb_one) 20
        ⟨0, fmprb_zero⟩ 5).1).rad := by
  refine ⟨by decide, by decide, ?_, ?_⟩
  · exact claim_C4_cached_constant.1 (fun _ => fmprb_one) 20 ⟨10, fmprb_one⟩ 7
      (by decide)
  · exact claim_C4_cached_constant.2.2 (fun _ => fmprb_one) 20 ⟨0, fmprb_zero⟩
      5 3 (by decide)

/-- C5: every scratch request of `xn + yn` limbs is routed by size: at most
40 limbs uses the caller's stack array (no state change); between 41 and
1000 limbs uses the process-wide cache, reallocating when the request
exceeds the tracked capacity and registering the process-exit cleanup
callback on the tier's first use; above 1000 limbs a fresh heap buffer is
used and freed before the call returns. -/
theorem claim_C5_buffer_tiers :
    (∀ (alloc : ℕ) (s : MulTmpState), alloc ≤ 40 →
      mulTmpAllocTier MUL_STACK_ALLOC MUL_TLS_ALLOC alloc s
        = (MulTmpTier.stack, s)) ∧
    (∀ (alloc : ℕ) (s : MulTmpState), 40 < alloc → alloc ≤ 1000 →
      (mulTmpAllocTier MUL_STACK_ALLOC MUL_TLS_ALLOC alloc s).1
        = MulTmpTier.tls ∧
      ((mulTmpAllocTier MUL_STACK_ALLOC MUL_TLS_ALLOC alloc s).2).mulAlloc
        = max s.mulAlloc alloc ∧
      (s.mulAlloc = 0 →
        ((mulTmpAllocTier MUL_STACK_ALLOC MUL_TLS_ALLOC alloc s).2).cleanupRegistered
          = true) ∧
      (alloc ≤ s.mulAlloc →
        (mulTmpAllocTier MUL_STACK_ALLOC MUL_TLS_ALLOC alloc s).2 = s)) ∧
    (∀ (alloc : ℕ) (s : MulTmpState), 1000 < alloc →
      mulTmpAllocTier MUL_STACK_ALLOC MUL_TLS_ALLOC alloc s
        = (MulTmpTier.heap, s)) ∧
    (∀ alloc : ℕ, mulTmpFree MUL_TLS_ALLOC alloc = true ↔ 1000 < alloc) ∧
    (∀ (xman xn : ℕ) (xexp : ℤ) (yman yn : ℕ) (yexp : ℤ) (negative : Bool)
        (prec : ℕ) (rnd : FmprRnd) (s : MulTmpState),
      (fmprMulMpnWithState MUL_STACK_ALLOC MUL_TLS_ALLOC xman xn xexp yman yn
        yexp negative prec rnd s).1.tier
        = (mulTmpAllocTier MUL_STACK_ALLOC MUL_TLS_ALLOC (xn + yn) s).1 ∧
      ((fmprMulMpnWithState MUL_STACK_ALLOC MUL_TLS_ALLOC xman xn xexp yman yn
        yexp negative prec rnd s).1.heapFreed = true ↔ 1000 < xn + yn)) := by
  have h40 : MUL_STACK_ALLOC = 40 := rfl
  have h1000 : MUL_TLS_ALLOC = 1000 := rfl
  refine ⟨?_, ?_, ?_, ?_, ?_⟩
  · intro alloc s h
    unfold mulTmpAllocTier
    rw [if_pos (by omega)]
  · intro alloc s hlo hhi
    unfold mulTmpAllocTier
    rw [if_neg (by omega), if_pos (by omega)]
    by_cases hg : s.mulAlloc < alloc
    · rw [if_pos hg]
      refine ⟨rfl, show alloc = max s.mulAlloc alloc from by omega, ?_, ?_⟩
      · intro hz
        show (if s.mulAlloc = 0 then true else s.cleanupRegistered) = true
        rw [if_pos hz]
      · intro hle
        omega
    · rw [if_neg hg]
      refine ⟨rfl, show s.mulAlloc = max s.mulAlloc alloc from by omega,
        ?_, fun _ => rfl⟩
      intro hz
      omega
  · intro alloc s h
    unfold mulTmpAllocTier
    rw [if_neg (by omega), if_neg (by omega)]
  · intro alloc
    unfold mulTmpFree
    rw [h1000]
    simp
  · intro xman xn xexp yman yn yexp negative prec rnd s
    constructor
    · unfold fmprMulMpnWithState
      simp only
    · unfold fmprMulMpnWithState mulTmpFree
      simp only
      rw [h1000]
      simp

theorem claim_C5_buffer_tiers_witness :
    ((10 : ℕ) ≤ 40) ∧ ((40 : ℕ) < 500) ∧ ((500 : ℕ) ≤ 1000) ∧
    ((1000 : ℕ) < 5000) ∧
    (mulTmpAllocTier MUL_STACK_ALLOC MUL_TLS_ALLOC 10 ⟨[], 0, false⟩
      = (MulTmpTier.stack, ⟨[], 0, false⟩)) ∧
    ((mulTmpAllocTier MUL_STACK_ALLOC MUL_TLS_ALLOC 500 ⟨[], 0, false⟩).1
      = MulTmpTier.tls ∧
     ((mulTmpAllocTier MUL_STACK_ALLOC MUL_TLS_ALLOC 500 ⟨[], 0, false⟩).2).mulAlloc
      = max 0 500 ∧
     ((0 : ℕ) = 0 →
      ((mulTmpAllocTier MUL_STACK_ALLOC MUL_TLS_ALLOC 500 ⟨[], 0, false⟩).2).cleanupRegistered
        = true) ∧
     ((500 : ℕ) ≤ 0 →
      (mulTmpAllocTier MUL_STACK_ALLOC MUL_TLS_ALLOC 500 ⟨[], 0, false⟩).2
        = ⟨[], 0, false⟩)) ∧
    (mulTmpAllocTier MUL_STACK_ALLOC MUL_TLS_ALLOC 5000 ⟨[], 0, false⟩
      = (MulTmpTier.heap, ⟨[], 0, false⟩)) := by
  refine ⟨by decide, by decide, by decide, by decide, ?_, ?_, ?_⟩
  · exact claim_C5_buffer_tiers.1 10 ⟨[], 0, false⟩ (by decide)
  · exact claim_C5_buffer_tiers.2.1 500 ⟨[], 0, false⟩ (by decide) (by decide)
  · exact claim_C5_buffer_tiers.2.2.1 5000 ⟨[], 0, false⟩ (by decide)

/-- C6: across any sequence of calls the cache's tracked capacity
(`__mul_alloc`) is monotonically non-decreasing — no call shrinks it — and
running `_mul_tmp_cleanup` frees the cache buffer and resets the tracked
capacity to zero. -/
theorem claim_C6_cache_capacity_monotone :
    (∀ (stackT tlsT alloc : ℕ) (s : MulTmpState),
      s.mulAlloc ≤ ((mulTmpAllocTier stackT tlsT alloc s).2).mulAlloc) ∧
    (∀ (stackT tlsT : ℕ) (xman xn : ℕ) (xexp : ℤ) (yman yn : ℕ) (yexp : ℤ)
        (negative : Bool) (prec : ℕ) (rnd : FmprRnd) (s : MulTmpState),
      s.mulAlloc ≤ ((fmprMulMpnWithState stackT tlsT xman xn xexp yman yn yexp
        negative prec rnd s).2).mulAlloc) ∧
    (∀ (stackT tlsT : ℕ) (allocs : List ℕ) (s : MulTmpState),
      s.mulAlloc ≤ ((allocs.foldl
        (fun st a => (mulTmpAllocTier stackT tlsT a st).2) s)).mulAlloc) ∧
    (∀ s : MulTmpState, mul_tmp_cleanup s = ⟨[], 0, s.cleanupRegistered⟩) := by
  refine ⟨?_, ?_, ?_, fun _ => rfl⟩
  · intro stackT tlsT alloc s
    exact mulTmpAllocTier_mono stackT tlsT alloc s
  · intro stackT tlsT xman xn xexp yman yn yexp negative prec rnd s
    exact fmprMulMpnWithState_mono stackT tlsT xman xn xexp yman yn yexp
      negative prec rnd s
  · intro stackT tlsT allocs
    induction allocs with
    | nil =>
        intro s
        simp
    | cons a allocs ih =>
        intro s
        simp only [List.foldl_cons]
        exact le_trans (mulTmpAllocTier_mono stackT tlsT a s)
          (ih ((mulTmpAllocTier stackT tlsT a s).2))

/-- C7: for fixed operands, negative flag, precision, and rounding mode,
`_fmpr_mul_mpn` produces the same rounded value and exactness result
regardless of which scratch tier the size thresholds route the request to:
for any thresholds and any two incoming cache states, the numeric outcome
equals the pure limb computation. -/
theorem claim_C7_tier_independence (stackT tlsT stackT2 tlsT2 : ℕ)
    (xman xn : ℕ) (xexp : ℤ) (yman yn : ℕ) (yexp : ℤ) (negative : Bool)
    (prec : ℕ) (rnd : FmprRnd) (s s2 : MulTmpState) :
    (fmprMulMpnWithState stackT tlsT xman xn xexp yman yn yexp negative prec
      rnd s).1.res
      = (fmprMulMpnWithState stackT2 tlsT2 xman xn xexp yman yn yexp negative
        prec rnd s2).1.res ∧
    (fmprMulMpnWithState stackT tlsT xman xn xexp yman yn yexp negative prec
      rnd s).1.res
      = fmprMulMpn xman xn xexp yman yn yexp negative prec rnd := by
  constructor
  · rw [fmprMulMpnWithState_res, fmprMulMpnWithState_res]
  · rw [fmprMulMpnWithState_res]

/-- C8: `evaluate_many` handles every degenerate input directly: zero points
gives an empty result; one point matches direct Horner evaluation; a
zero-length polynomial gives all-zero balls; a length-1 polynomial gives the
constant term at every point. -/
theorem claim_C8_degenerate_inputs :
    (∀ (poly : List Fmprb) (prec : ℕ),
      fmprb_poly_evaluate_vec_fast poly [] prec = []) ∧
    (∀ (poly : List Fmprb) (x : Fmprb) (prec : ℕ),
      fmprb_poly_evaluate_vec_fast poly [x] prec
        = [fmprb_poly_evaluate prec x poly]) ∧
    (∀ (xs : List Fmprb) (prec : ℕ),
      fmprb_poly_evaluate_vec_fast [] xs prec
        = List.replicate xs.length fmprb_zero) ∧
    (∀ (c : Fmprb) (xs : List Fmprb) (prec : ℕ),
      fmprb_poly_evaluate_vec_fast [c] xs prec
        = List.replicate xs.length c) := by
  refine ⟨?_, ?_, ?_, ?_⟩
  · intro poly prec
    exact evaluate_vec_fast_nil_points poly prec
  · intro poly x prec
    exact evaluate_vec_fast_one_point poly x prec
  · intro xs prec
    exact evaluate_vec_fast_zero_poly xs prec
  · intro c xs prec
    exact evaluate_vec_fast_const_poly c xs prec

/-- C9: the special-case fast paths compute the same result as the general
routine they bypass — `_fmprb_poly_rem_2` on a length-2 dividend equals
`_fmprb_poly_rem` against the same monic length-2 divisor, and the
`mpn_mul_1` single-limb path of `_fmpr_mul_mpn` yields the same rounded
value and exactness result as the general `mpn_mul` path. -/
theorem claim_C9_fast_path_equivalence :
    (∀ (prec : ℕ) (a0 a1 b0 : Fmprb),
      fmprb_poly_rem_2 prec [a0, a1] [b0, fmprb_one]
        = fmprb_poly_rem prec [a0, a1] [b0, fmprb_one]) ∧
    (∀ (xman xn : ℕ) (xexp : ℤ) (yman : ℕ) (yexp : ℤ) (negative : Bool)
        (prec : ℕ) (rnd : FmprRnd),
      xman < 2 ^ (mpLimbBits * xn) → yman < 2 ^ mpLimbBits →
      fmprMulMpn xman xn xexp yman 1 yexp negative prec rnd
        = fmprMulMpnGeneral xman xn xexp yman 1 yexp negative prec rnd) := by
  constructor
  · intro prec a0 a1 b0
    exact fmprb_poly_rem_2_eq_rem prec a0 a1 b0
  · intro xman xn xexp yman yexp negative prec rnd hx hy
    exact fmprMulMpn_mul1_path_eq xexp yexp negative prec rnd hx hy

theorem claim_C9_fast_path_equivalence_witness :
    ((2 : ℕ) ^ 63 < 2 ^ (mpLimbBits * 1)) ∧ ((3 : ℕ) < 2 ^ mpLimbBits) ∧
    (fmprb_poly_rem_2 8 [fmprb_one, fmprb_one] [fmprb_zero, fmprb_one]
      = fmprb_poly_rem 8 [fmprb_one, fmprb_one] [fmprb_zero, fmprb_one]) ∧
    (fmprMulMpn (2 ^ 63) 1 0 3 1 0 false 8 FmprRnd.down
      = fmprMulMpnGeneral (2 ^ 63) 1 0 3 1 0 false 8 FmprRnd.down) := by
  refine ⟨by decide, by decide, ?_, ?_⟩
  · exact claim_C9_fast_path_equivalence.1 8 fmprb_one fmprb_one fmprb_zero
  · exact claim_C9_fast_path_equivalence.2 (2 ^ 63) 1 0 3 0 false 8
      FmprRnd.down (by decide) (by decide)

/-- C10: for normalized operands of `xn` and `yn` limbs, the exact product
occupies `xn + yn` limbs with at most one leading zero limb;
`_fmpr_mul_mpn` strips exactly the single topmost limb when (and only when)
it is zero, so the mantissa passed to rounding always has a nonzero most
significant limb. -/
theorem claim_C10_single_leading_zero_limb (xman xn yman yn : ℕ)
    (xexp yexp : ℤ) (negative : Bool) (prec : ℕ) (rnd : FmprRnd)
    (hx : mpnNormalized xman xn) (hy : mpnNormalized yman yn) :
    2 ^ (mpLimbBits * (xn + yn) - 2) ≤ xman * yman ∧
    xman * yman < 2 ^ (mpLimbBits * (xn + yn)) ∧
    ((fmprMulMpn xman xn xexp yman yn yexp negative prec rnd).zlen = xn + yn ∨
     (fmprMulMpn xman xn xexp yman yn yexp negative prec rnd).zlen
       = xn + yn - 1) ∧
    ((fmprMulMpn xman xn xexp yman yn yexp negative prec rnd).zlen
        = xn + yn - 1 ↔
      xman * yman < 2 ^ (mpLimbBits * (xn + yn - 1))) ∧
    2 ^ (mpLimbBits *
        ((fmprMulMpn xman xn xexp yman yn yexp negative prec rnd).zlen - 1))
      ≤ xman * yman ∧
    xman * yman < 2 ^ (mpLimbBits *
        (fmprMulMpn xman xn xexp yman yn yexp negative prec rnd).zlen) := by
  have hxp : 1 ≤ xn := mpnNormalized_pos_len hx
  have hyp : 1 ≤ yn := mpnNormalized_pos_len hy
  have hw : mpLimbBits = 64 := rfl
  have hup : xman * yman < 2 ^ (mpLimbBits * (xn + yn)) := by
    calc xman * yman < 2 ^ (mpLimbBits * xn) * 2 ^ (mpLimbBits * yn) :=
          Nat.mul_lt_mul_of_lt_of_lt hx.2 hy.2
    _ = 2 ^ (mpLimbBits * (xn + yn)) := by
        rw [← Nat.pow_add]
        congr 1
        ring
  have hlow : 2 ^ (mpLimbBits * (xn + yn) - 2) ≤ xman * yman := by
    calc 2 ^ (mpLimbBits * (xn + yn) - 2)
        = 2 ^ (mpLimbBits * xn - 1) * 2 ^ (mpLimbBits * yn - 1) := by
          rw [← Nat.pow_add]
          congr 1
          rw [hw]
          omega
    _ ≤ xman * yman := Nat.mul_le_mul hx.1 hy.1
  have hspec := fmprMulMpn_spec xexp yexp negative prec rnd hx.2 hy.2 (by omega)
  rw [hspec]
  simp only
  have hpow : 0 < 2 ^ (mpLimbBits * (xn + yn - 1)) :=
    Nat.pos_pow_of_pos _ (by norm_num)
  by_cases htop : xman * yman / 2 ^ (mpLimbBits * (xn + yn - 1)) = 0
  · have hlt : xman * yman < 2 ^ (mpLimbBits * (xn + yn - 1)) :=
      (Nat.div_eq_zero_iff hpow).mp htop
    rw [if_pos htop]
    refine ⟨hlow, hup, Or.inr rfl, ⟨fun _ => hlt, fun _ => rfl⟩, ?_, ?_⟩
    · calc 2 ^ (mpLimbBits * (xn + yn - 1 - 1))
          ≤ 2 ^ (mpLimbBits * (xn + yn) - 2) := by
            apply Nat.pow_le_pow_right (by norm_num)
            rw [hw]
            omega
      _ ≤ xman * yman := hlow
    · exact hlt
  · have hge : 2 ^ (mpLimbBits * (xn + yn - 1)) ≤ xman * yman := by
      by_contra hc
      push_neg at hc
      exact htop (Nat.div_eq_of_lt hc)
    rw [if_neg htop]
    refine ⟨hlow, hup, Or.inl (by omega), ?_, ?_, ?_⟩
    · constructor
      · intro hc
        omega
      · intro hc
        omega
    · show 2 ^ (mpLimbBits * (xn + yn - 0 - 1)) ≤ xman * yman
      have he : xn + yn - 0 - 1 = xn + yn - 1 := by omega
      rw [he]
      exact hge
    · show xman * yman < 2 ^ (mpLimbBits * (xn + yn - 0))
      have he : xn + yn - 0 = xn + yn := by omega
      rw [he]
      exact hup

theorem claim_C10_single_leading_zero_limb_witness :
    mpnNormalized (2 ^ 63) 1 ∧ mpnNormalized (2 ^ 64 - 1) 1 ∧
    (2 ^ (mpLimbBits * 2 - 2) ≤ 2 ^ 63 * 2 ^ 63 ∧
     2 ^ 63 * 2 ^ 63 < 2 ^ (mpLimbBits * 2) ∧
     ((fmprMulMpn (2 ^ 63) 1 0 (2 ^ 63) 1 0 false 8 FmprRnd.down).zlen = 2 ∨
      (fmprMulMpn (2 ^ 63) 1 0 (2 ^ 63) 1 0 false 8 FmprRnd.down).zlen = 1) ∧
     ((fmprMulMpn (2 ^ 63) 1 0 (2 ^ 63) 1 0 false 8 FmprRnd.down).zlen = 1 ↔
       2 ^ 63 * 2 ^ 63 < 2 ^ (mpLimbBits * 1)) ∧
     2 ^ (mpLimbBits *
        ((fmprMulMpn (2 ^ 63) 1 0 (2 ^ 63) 1 0 false 8 FmprRnd.down).zlen - 1))
       ≤ 2 ^ 63 * 2 ^ 63 ∧
     2 ^ 63 * 2 ^ 63 < 2 ^ (mpLimbBits *
        (fmprMulMpn (2 ^ 63) 1 0 (2 ^ 63) 1 0 false 8 FmprRnd.down).zlen)) := by
  have h1 : mpnNormalized (2 ^ 63) 1 := by decide
  have h2 : mpnNormalized (2 ^ 64 - 1) 1 := by decide
  exact ⟨h1, h2,
    claim_C10_single_leading_zero_limb (2 ^ 63) 1 (2 ^ 63) 1 0 0 false 8
      FmprRnd.down h1 h1⟩
